import Mathlib

/-!
Verification of the `cryptid-rs` codec core (`src/codec.rs`, `src/config.rs`).

The development shallowly embeds the Rust code.  Bytes are `Nat` values
(kept `< 256` where it matters), byte strings are `List Nat`, `u64`/`u128`
values are `Nat` with explicit bounds, and Rust `Result` is the `DResult`
type below.  A Rust panic (out-of-bounds slice access, `expect` failure) is
modelled by `Option.none` in the functions that can reach one.

The cryptographic primitives (the FF1/AES-256 format-preserving cipher of
the `fpe` crate, and HMAC-SHA256 of the `hmac`/`sha2` crates, keyed via
HKDF) are external dependencies, not code of this repository.  Following
the specification, which treats them as external collaborators, they are
modelled abstractly: `Fpe` is a length-preserving invertible cipher on
nonempty byte strings, `MacF` an arbitrary function producing 32 bytes.
Everything else (trimming, sentinel packing, base62 text, prefix handling,
the decode pipeline) is translated directly from the source.
-/

namespace Cryptid

/-! ### Little-endian byte serialization (`u64::to_le_bytes`, `u128::to_le_bytes`, `from_le_bytes`) -/

/-- `toLeBytes l n` is the `l`-byte little-endian serialization of `n`
(`n.to_le_bytes()` in Rust, truncating to `l` bytes). -/
def toLeBytes : Nat → Nat → List Nat
  | 0, _ => []
  | l + 1, n => n % 256 :: toLeBytes l (n / 256)

/-- The numeric value of a little-endian byte string (`from_le_bytes`). -/
def leVal : List Nat → Nat
  | [] => 0
  | b :: bs => b + 256 * leVal bs

/-! ### `Iterator::rposition` and `last_nonzero` -/

/-- Index of the last element satisfying `p`, as in Rust's
`Iterator::rposition`. -/
def rposition (p : α → Bool) : List α → Option Nat
  | [] => none
  | x :: xs =>
    match rposition p xs with
    | some i => some (i + 1)
    | none => if p x then some 0 else none

/-- `fn last_nonzero(bytes: &[u8]) -> usize`:
`bytes.iter().rposition(|&b| b != 0).unwrap_or(0)`. -/
def last_nonzero (bytes : List Nat) : Nat :=
  (rposition (fun b => b ≠ 0) bytes).getD 0

/-! ### The base62 text codec (external `base62` crate, v2)

The `base62` crate encodes a `u128` over the standard alphabet
`0-9A-Za-z` (most significant digit first, `encode(0) = "0"`), and
`base62::decode` fails on an empty input, on any byte outside the
alphabet, and on arithmetic overflow past `u128::MAX` (all three
collapse to `Error::DecodingFailed` through the `From` impl in
`codec.rs`).  `none` below stands for any `base62::DecodeError`. -/

/-- The digit character for a value `d < 62` in the standard base62
alphabet: digits, then uppercase, then lowercase. -/
def b62Char (d : Nat) : Char :=
  if d < 10 then Char.ofNat (48 + d)
  else if d < 36 then Char.ofNat (65 + (d - 10))
  else Char.ofNat (97 + (d - 36))

/-- The value of a base62 digit character, `none` outside the alphabet. -/
def b62Digit (ch : Char) : Option Nat :=
  if 48 ≤ ch.toNat ∧ ch.toNat ≤ 57 then some (ch.toNat - 48)
  else if 65 ≤ ch.toNat ∧ ch.toNat ≤ 90 then some (ch.toNat - 55)
  else if 97 ≤ ch.toNat ∧ ch.toNat ≤ 122 then some (ch.toNat - 61)
  else none

/-- Little-endian digit characters of `n` (fuelled; 32 digits cover any
`u128`, the crate's input type). -/
def b62Rev : Nat → Nat → List Char
  | 0, _ => []
  | fuel + 1, n => if n = 0 then [] else b62Char (n % 62) :: b62Rev fuel (n / 62)

/-- `base62::encode`: most-significant-first digit characters, `"0"` for 0. -/
def base62Encode (n : Nat) : List Char :=
  if n = 0 then ['0'] else (b62Rev 32 n).reverse

/-- The left fold of `base62::decode`, with the crate's checked `u128`
arithmetic: `none` on an out-of-alphabet character or on overflow. -/
def b62Go : Nat → List Char → Option Nat
  | acc, [] => some acc
  | acc, ch :: cs =>
    match b62Digit ch with
    | none => none
    | some d => if acc * 62 + d < 2 ^ 128 then b62Go (acc * 62 + d) cs else none

/-- `base62::decode`: fails on empty input, bad characters, and overflow. -/
def base62Decode (cs : List Char) : Option Nat :=
  match cs with
  | [] => none
  | _ => b62Go 0 cs

/-- The base62 value of a character list, reading invalid characters as 0
(used only to state when the crate's checked arithmetic overflows). -/
def b62ValFrom (acc : Nat) (cs : List Char) : Nat :=
  cs.foldl (fun a ch => a * 62 + (b62Digit ch).getD 0) acc

/-! ### Errors (`enum Error` in `codec.rs`) -/

/-- `codec.rs` `enum Error`.  `InvalidPre` models the Rust variant
`InvalidPrefix { received, expected }` (the name is shortened). -/
inductive Error where
  | DecodingFailed
  | DecryptionFailed
  | EncryptionFailed
  | IncorrectMAC
  | InvalidDataLength
  | InvalidPre (received expected : String)
  | SentinelMismatch (received expected : Nat)
deriving DecidableEq

/-- Rust `Result<u64, Error>`. -/
inductive DResult where
  | ok (n : Nat)
  | err (e : Error)
deriving DecidableEq

/-- `const MAX_BUFFER: usize = 16`. -/
def MAX_BUFFER : Nat := 16

/-- `const SENTINEL: u8 = 1`. -/
def SENTINEL : Nat := 1

/-! ### The abstract cryptographic primitives -/

/-- The external FF1/AES-256 binary-radix format-preserving cipher
(`fpe` crate): a length-preserving bijection on byte strings, total on
nonempty inputs (a nonempty byte string has at least 8 bits, above FF1's
radix-2 minimum length).  `enc`/`dec` model
`ff1.encrypt(&[], &BinaryNumeralString::from_bytes_le(..)).to_bytes_le()`
and the corresponding decryption; `none` is a primitive rejection. -/
structure Fpe where
  enc : List Nat → Option (List Nat)
  dec : List Nat → Option (List Nat)
  encTotal : ∀ bs : List Nat, bs ≠ [] → (enc bs).isSome = true
  decTotal : ∀ bs : List Nat, bs ≠ [] → (dec bs).isSome = true
  encLen : ∀ bs cs, enc bs = some cs → cs.length = bs.length
  decLen : ∀ bs cs, dec bs = some cs → cs.length = bs.length
  decEnc : ∀ bs cs, (∀ b ∈ bs, b < 256) → enc bs = some cs → dec cs = some bs
  encBytes : ∀ bs cs, enc bs = some cs → (∀ b ∈ bs, b < 256) → ∀ b ∈ cs, b < 256

/-- The external keyed HMAC-SHA256 state (`hmac`/`sha2` crates):
`mac bs` is the 32-byte digest of `bs` under the codec's MAC subkey. -/
structure MacF where
  mac : List Nat → List Nat
  macLen : ∀ bs, (mac bs).length = 32
  macBytes : ∀ bs, ∀ b ∈ mac bs, b < 256

/-- `struct Codec`.  The two HKDF-derived subkeys of the Rust struct are
materialized here directly as the keyed primitives `fpe` and `hmac`
(matching the Rust fields `ff1` and `hmac`); `pre` is the Rust field
`prefix`, the literal string `"<name>_"`. -/
structure Codec where
  fpe : Fpe
  hmac : MacF
  hmac_length : Nat
  pre : String
  zero_pad_length : Nat

/-! ### The packing helpers of `codec.rs` -/

/-- `fn num_to_le_vec(num: u64, min_length: usize) -> Vec<u8>`:
serialize little-endian, keep `max(last_nonzero + 1, min_length)` bytes. -/
def num_to_le_vec (num min_length : Nat) : List Nat :=
  (toLeBytes 8 num).take (max (last_nonzero (toLeBytes 8 num) + 1) min_length)

/-- `fn le_vec_to_num(bytes: &[u8]) -> u64`: copy into an 8-byte buffer and
read little-endian.  `none` models the Rust panic `arr[..bytes.len()]`
out of range when the input is longer than 8 bytes. -/
def le_vec_to_num (bytes : List Nat) : Option Nat :=
  if bytes.length ≤ 8 then some (leVal bytes) else none

/-- `fn encrypt_number`: encrypt the trimmed plaintext, append the
truncated MAC of the ciphertext.  `none` models the `.expect` panic on a
primitive rejection. -/
def encrypt_number (fpe : Fpe) (hmac : MacF) (hmac_length zero_pad_length num : Nat) :
    Option (List Nat) :=
  match fpe.enc (num_to_le_vec num zero_pad_length) with
  | none => none
  | some encrypted_num => some (encrypted_num ++ (hmac.mac encrypted_num).take hmac_length)

/-- The 16-byte buffer built by `Codec::encode_u128`: the payload at
offset 0, then (when it does not fill the buffer) the sentinel byte and
implicit zeroes. -/
def packBuf (bytes : List Nat) : List Nat :=
  if bytes.length < MAX_BUFFER then
    bytes ++ SENTINEL :: List.replicate (MAX_BUFFER - (bytes.length + 1)) 0
  else bytes

/-- `fn Codec::encode_u128(&self, num: u64) -> u128`.  `none` models the
panic of `num_array[..bytes.len()]` were the payload to exceed 16 bytes. -/
def encode_u128 (c : Codec) (num : Nat) : Option Nat :=
  match encrypt_number c.fpe c.hmac c.hmac_length c.zero_pad_length num with
  | none => none
  | some bytes => if bytes.length ≤ MAX_BUFFER then some (leVal (packBuf bytes)) else none

/-- `fn Codec::encode(&self, num: u64) -> String`:
`format!("{}{}", self.prefix, base62::encode(self.encode_u128(num)))`. -/
def encode (c : Codec) (num : Nat) : Option String :=
  match encode_u128 c num with
  | none => none
  | some v => some (c.pre ++ String.mk (base62Encode v))

/-- `fn Codec::encode_uuid(&self, num: u64) -> Uuid`: the pipeline with
the fixed arguments `hmac_length = 8, zero_pad_length = 8`, read as a
128-bit little-endian value (`Uuid::from_u128_le` is injective, so the
resulting UUID is determined by this value; `none` models the
`.expect("Should have exactly 16 bytes")` panic). -/
def encode_uuid (c : Codec) (num : Nat) : Option Nat :=
  match encrypt_number c.fpe c.hmac 8 8 num with
  | none => none
  | some vec => if vec.length = 16 then some (leVal vec) else none

/-- `fn decrypt_number(codec: &Codec, encrypted_data: &[u8])`: length
check, then split at `len - hmac_length` into ciphertext and received
MAC (written out instead of `let`-bound), MAC verification, decryption,
little-endian reassembly. -/
def decrypt_number (c : Codec) (encrypted_data : List Nat) : Option DResult :=
  if encrypted_data.length < c.hmac_length + c.zero_pad_length then
    some (DResult.err Error.InvalidDataLength)
  else if (c.hmac.mac (encrypted_data.take (encrypted_data.length - c.hmac_length))).take
      c.hmac_length ≠ encrypted_data.drop (encrypted_data.length - c.hmac_length) then
    some (DResult.err Error.IncorrectMAC)
  else
    match c.fpe.dec (encrypted_data.take (encrypted_data.length - c.hmac_length)) with
    | none => some (DResult.err Error.DecryptionFailed)
    | some decrypted_num =>
      match le_vec_to_num decrypted_num with
      | none => none
      | some n => some (DResult.ok n)

/-- The part of `Codec::decode` after the base62 parse: interpret the
128-bit value as 16 little-endian bytes (`num.to_le_bytes()`), locate the
sentinel when `hmac_length + zero_pad_length < MAX_BUFFER`, and decrypt
the payload `num_array[..length]`. -/
def decodeNum (c : Codec) (num : Nat) : Option DResult :=
  if c.hmac_length + c.zero_pad_length < MAX_BUFFER then
    if (toLeBytes 16 num).getD (last_nonzero (toLeBytes 16 num)) 0 ≠ SENTINEL then
      some (DResult.err (Error.SentinelMismatch
        ((toLeBytes 16 num).getD (last_nonzero (toLeBytes 16 num)) 0) SENTINEL))
    else decrypt_number c ((toLeBytes 16 num).take (last_nonzero (toLeBytes 16 num)))
  else decrypt_number c ((toLeBytes 16 num).take MAX_BUFFER)

/-- `Codec::decode` from the base62 stage on, applied to the text after
the prefix. -/
def decodeTail (c : Codec) (tail : List Char) : Option DResult :=
  match base62Decode tail with
  | none => some (DResult.err Error.DecodingFailed)
  | some num => decodeNum c num

/-- The `received` string of `Codec::decode`: the leading substring up to
and including the last underscore, `""` when there is none. -/
def decodeReceived (encoded : String) : String :=
  match rposition (fun ch => ch = '_') encoded.data with
  | none => ""
  | some i => String.mk (encoded.data.take (i + 1))

/-- `fn Codec::decode(&self, encoded: &str) -> Result<u64, Error>`: the
leading substring up to and including the last underscore must equal the
stored prefix, then the remainder is parsed.  (Rust slices at byte
indices; since the check forces the leading bytes to equal the prefix,
slicing at `prefix.len()` bytes is slicing at `prefix` chars.) -/
def decode (c : Codec) (encoded : String) : Option DResult :=
  if decodeReceived encoded = c.pre then
    decodeTail c (encoded.data.drop c.pre.data.length)
  else some (DResult.err (Error.InvalidPre (decodeReceived encoded) c.pre))

/-! ### Concrete instances of the abstract primitives (for witnesses) -/

/-- The identity cipher: a legitimate length-preserving invertible
primitive, used to instantiate witnesses and counterexamples. -/
def idFpe : Fpe where
  enc := fun bs => some bs
  dec := fun bs => some bs
  encTotal := fun _ _ => rfl
  decTotal := fun _ _ => rfl
  encLen := fun _ _ h => by cases h; rfl
  decLen := fun _ _ h => by cases h; rfl
  decEnc := fun _ _ _ h => by cases h; rfl
  encBytes := fun _ _ h hb => by cases h; exact hb

/-- The all-zero MAC: a legitimate 32-byte-output function, used to
instantiate witnesses and counterexamples. -/
def zeroMac : MacF where
  mac := fun _ => List.replicate 32 0
  macLen := fun _ => by simp
  macBytes := fun _ b hb => by
    rw [List.eq_of_mem_replicate hb]
    omega

/-- A concrete codec over the identity primitives. -/
def mkCodec (p : String) (hl zl : Nat) : Codec :=
  { fpe := idFpe, hmac := zeroMac, hmac_length := hl, pre := p, zero_pad_length := zl }

/-! ### The concrete cryptographic primitives

`Codec::new` derives its two subkeys with HKDF-SHA256 (`hkdf`/`sha2`
crates, no salt) under the labels `"<name>/ff1"` and `"<name>/hmac"`,
and instantiates FF1/AES-256 over radix 2 (`fpe`/`aes` crates) and
HMAC-SHA256 (`hmac` crate).  To settle the literal token vectors these
primitives are embedded executably: SHA-256 and HKDF per RFC 6234/5869,
AES-256 per FIPS 197, FF1 per NIST SP 800-38G with an empty tweak, and
the `fpe` crate's `BinaryNumeralString::from_bytes_le` bit convention
(least-significant bit of byte 0 first). -/

/-- Addition modulo `2^32`. -/
def add32 (a b : Nat) : Nat := (a + b) % 4294967296

/-- Right rotation of a 32-bit word by `k`. -/
def rotr (k x : Nat) : Nat := x / 2 ^ k + x % 2 ^ k * 2 ^ (32 - k)

/-- Logical right shift. -/
def shr (k x : Nat) : Nat := x / 2 ^ k

/-- Bitwise XOR (32-bit operands). -/
def xor32 (a b : Nat) : Nat := Nat.xor a b

/-- Bitwise complement of a 32-bit word. -/
def not32 (x : Nat) : Nat := 4294967295 - x % 4294967296

/-- Bitwise AND (32-bit operands). -/
def and32 (a b : Nat) : Nat := Nat.land a b

/-- Bitwise XOR of two bytes. -/
def xor8 (a b : Nat) : Nat := Nat.xor a b

/-- The 64 SHA-256 round constants of FIPS 180-4 (in decimal). -/
def shaK : List Nat :=
  [1116352408, 1899447441, 3049323471, 3921009573, 961987163, 1508970993, 2453635748,
   2870763221, 3624381080, 310598401, 607225278, 1426881987, 1925078388, 2162078206,
   2614888103, 3248222580, 3835390401, 4022224774, 264347078, 604807628, 770255983, 1249150122,
   1555081692, 1996064986, 2554220882, 2821834349, 2952996808, 3210313671, 3336571891,
   3584528711, 113926993, 338241895, 666307205, 773529912, 1294757372, 1396182291, 1695183700,
   1986661051, 2177026350, 2456956037, 2730485921, 2820302411, 3259730800, 3345764771,
   3516065817, 3600352804, 4094571909, 275423344, 430227734, 506948616, 659060556, 883997877,
   958139571, 1322822218, 1537002063, 1747873779, 1955562222, 2024104815, 2227730452,
   2361852424, 2428436474, 2756734187, 3204031479, 3329325298]

/-- A SHA-256 state: eight 32-bit words. -/
abbrev Words8 := Nat × Nat × Nat × Nat × Nat × Nat × Nat × Nat

/-- The SHA-256 initial hash value (in decimal). -/
def shaH0 : Words8 :=
  (1779033703, 3144134277, 1013904242, 2773480762,
   1359893119, 2600822924, 528734635, 1541459225)

/-- Fuelled worker for `chunks`. -/
def chunksGo (k : Nat) : Nat → List α → List (List α)
  | 0, _ => []
  | _, [] => []
  | fuel + 1, l => l.take k :: chunksGo k fuel (l.drop k)

/-- Split a list into chunks of `k` (fuelled by the list length). -/
def chunks (k : Nat) (l : List α) : List (List α) :=
  chunksGo k l.length l

/-- Four big-endian bytes to a 32-bit word. -/
def bytesToWordBE (bs : List Nat) : Nat :=
  bs.foldl (fun a b => a * 256 + b) 0

/-- A 32-bit word to four big-endian bytes. -/
def wordToBytesBE (w : Nat) : List Nat :=
  [w / 2 ^ 24 % 256, w / 2 ^ 16 % 256, w / 2 ^ 8 % 256, w % 256]

/-- SHA-256 padding: `0x80`, zeroes to 56 mod 64, 64-bit big-endian
bit length. -/
def shaPad (msg : List Nat) : List Nat :=
  msg ++ 0x80 :: List.replicate ((119 - msg.length % 64) % 64) 0 ++
    wordToBytesBE (8 * msg.length / 4294967296) ++ wordToBytesBE (8 * msg.length % 4294967296)

/-- SHA-256 message-schedule function `σ₀`. -/
def smallSigma0 (x : Nat) : Nat := xor32 (rotr 7 x) (xor32 (rotr 18 x) (shr 3 x))

/-- SHA-256 message-schedule function `σ₁`. -/
def smallSigma1 (x : Nat) : Nat := xor32 (rotr 17 x) (xor32 (rotr 19 x) (shr 10 x))

/-- SHA-256 compression function `Σ₀`. -/
def bigSigma0 (x : Nat) : Nat := xor32 (rotr 2 x) (xor32 (rotr 13 x) (rotr 22 x))

/-- SHA-256 compression function `Σ₁`. -/
def bigSigma1 (x : Nat) : Nat := xor32 (rotr 6 x) (xor32 (rotr 11 x) (rotr 25 x))

/-- Extend the 16-word message schedule to 64 words (fuel 48). -/
def schedExtend : Nat → List Nat → List Nat
  | 0, w => w
  | fuel + 1, w =>
    let i := w.length
    schedExtend fuel (w ++ [add32 (add32 (w.getD (i - 16) 0) (smallSigma0 (w.getD (i - 15) 0)))
      (add32 (w.getD (i - 7) 0) (smallSigma1 (w.getD (i - 2) 0)))])

/-- One SHA-256 compression round. -/
def shaStep (st : Words8) (kw : Nat × Nat) : Words8 :=
  match st with
  | (a, b, c, d, e, f, g, h) =>
    let t1 := add32 h (add32 (bigSigma1 e) (add32 (xor32 (and32 e f) (and32 (not32 e) g))
      (add32 kw.1 kw.2)))
    let t2 := add32 (bigSigma0 a) (xor32 (and32 a b) (xor32 (and32 a c) (and32 b c)))
    (add32 t1 t2, a, b, c, add32 d t1, e, f, g)

/-- Process one 64-byte block. -/
def shaBlock (h : Words8) (block : List Nat) : Words8 :=
  match h, (shaK.zip (schedExtend 48 ((chunks 4 block).map bytesToWordBE))).foldl shaStep h with
  | (a, b, c, d, e, f, g, hh), (a2, b2, c2, d2, e2, f2, g2, h2) =>
    (add32 a a2, add32 b b2, add32 c c2, add32 d d2,
     add32 e e2, add32 f f2, add32 g g2, add32 hh h2)

/-- SHA-256 of a byte string (`sha2` crate). -/
def sha256 (msg : List Nat) : List Nat :=
  match (chunks 64 (shaPad msg)).foldl shaBlock shaH0 with
  | (a, b, c, d, e, f, g, h) =>
    wordToBytesBE a ++ wordToBytesBE b ++ wordToBytesBE c ++ wordToBytesBE d ++
    wordToBytesBE e ++ wordToBytesBE f ++ wordToBytesBE g ++ wordToBytesBE h

/-- HMAC-SHA256 (`hmac` crate). -/
def hmacSha256 (key msg : List Nat) : List Nat :=
  let k0 := if key.length > 64 then sha256 key else key
  let k := k0 ++ List.replicate (64 - k0.length) 0
  sha256 ((k.map (fun b => xor8 b 0x5c)) ++
    sha256 ((k.map (fun b => xor8 b 0x36)) ++ msg))

/-- HKDF-SHA256, no salt (`Hkdf::new(None, key)`), one 32-byte output
block: `expand(info)` truncated to 32 bytes. -/
def hkdfExpand32 (ikm info : List Nat) : List Nat :=
  hmacSha256 (hmacSha256 (List.replicate 32 0) ikm) (info ++ [1])

/-- The AES S-box (FIPS 197). -/
def sbox : List Nat :=
  [0x63, 0x7c, 0x77, 0x7b, 0xf2, 0x6b, 0x6f, 0xc5, 0x30, 0x01, 0x67, 0x2b, 0xfe, 0xd7, 0xab, 0x76,
   0xca, 0x82, 0xc9, 0x7d, 0xfa, 0x59, 0x47, 0xf0, 0xad, 0xd4, 0xa2, 0xaf, 0x9c, 0xa4, 0x72, 0xc0,
   0xb7, 0xfd, 0x93, 0x26, 0x36, 0x3f, 0xf7, 0xcc, 0x34, 0xa5, 0xe5, 0xf1, 0x71, 0xd8, 0x31, 0x15,
   0x04, 0xc7, 0x23, 0xc3, 0x18, 0x96, 0x05, 0x9a, 0x07, 0x12, 0x80, 0xe2, 0xeb, 0x27, 0xb2, 0x75,
   0x09, 0x83, 0x2c, 0x1a, 0x1b, 0x6e, 0x5a, 0xa0, 0x52, 0x3b, 0xd6, 0xb3, 0x29, 0xe3, 0x2f, 0x84,
   0x53, 0xd1, 0x00, 0xed, 0x20, 0xfc, 0xb1, 0x5b, 0x6a, 0xcb, 0xbe, 0x39, 0x4a, 0x4c, 0x58, 0xcf,
   0xd0, 0xef, 0xaa, 0xfb, 0x43, 0x4d, 0x33, 0x85, 0x45, 0xf9, 0x02, 0x7f, 0x50, 0x3c, 0x9f, 0xa8,
   0x51, 0xa3, 0x40, 0x8f, 0x92, 0x9d, 0x38, 0xf5, 0xbc, 0xb6, 0xda, 0x21, 0x10, 0xff, 0xf3, 0xd2,
   0xcd, 0x0c, 0x13, 0xec, 0x5f, 0x97, 0x44, 0x17, 0xc4, 0xa7, 0x7e, 0x3d, 0x64, 0x5d, 0x19, 0x73,
   0x60, 0x81, 0x4f, 0xdc, 0x22, 0x2a, 0x90, 0x88, 0x46, 0xee, 0xb8, 0x14, 0xde, 0x5e, 0x0b, 0xdb,
   0xe0, 0x32, 0x3a, 0x0a, 0x49, 0x06, 0x24, 0x5c, 0xc2, 0xd3, 0xac, 0x62, 0x91, 0x95, 0xe4, 0x79,
   0xe7, 0xc8, 0x37, 0x6d, 0x8d, 0xd5, 0x4e, 0xa9, 0x6c, 0x56, 0xf4, 0xea, 0x65, 0x7a, 0xae, 0x08,
   0xba, 0x78, 0x25, 0x2e, 0x1c, 0xa6, 0xb4, 0xc6, 0xe8, 0xdd, 0x74, 0x1f, 0x4b, 0xbd, 0x8b, 0x8a,
   0x70, 0x3e, 0xb5, 0x66, 0x48, 0x03, 0xf6, 0x0e, 0x61, 0x35, 0x57, 0xb9, 0x86, 0xc1, 0x1d, 0x9e,
   0xe1, 0xf8, 0x98, 0x11, 0x69, 0xd9, 0x8e, 0x94, 0x9b, 0x1e, 0x87, 0xe9, 0xce, 0x55, 0x28, 0xdf,
   0x8c, 0xa1, 0x89, 0x0d, 0xbf, 0xe6, 0x42, 0x68, 0x41, 0x99, 0x2d, 0x0f, 0xb0, 0x54, 0xbb, 0x16]

/-- The S-box packed into one natural number, byte `b` at weight
`256^b` (`sboxN_eq_sbox` below links it to the table; the packed form
keeps the kernel lookup a single shift). -/
def sboxN : Nat := 2869618975290639062594974519597816386035077209210385677284518162336985023502962151465775969507961862820568736543004676439868535775640188584098917533413284844376797297285941524888791401501466624530423689326528054213168201056672989590893583853414110162539122864583953358348775951166211353578440977400428507475679327181038682772945817200201960445064847785221508011893952350688324234443749897213621340677040612747745615276448919507935121141307752692835344166708617454322778699219895865633266409040561742768581056182730443599545881830075941537620590442514083341749674612746994879540562701631131184186066652929592955206755

/-- S-box lookup. -/
def sboxAt (b : Nat) : Nat := Nat.shiftRight sboxN (8 * b) % 256

/-- `SubWord` of the AES key schedule. -/
def subWord (w : Nat) : Nat :=
  bytesToWordBE ((wordToBytesBE w).map sboxAt)

/-- `RotWord` of the AES key schedule. -/
def rotWord (w : Nat) : Nat := w % 2 ^ 24 * 256 + w / 2 ^ 24

/-- The AES round-constant words (index `i/8` is used for AES-256). -/
def rcon : List Nat := [0, 0x01000000, 0x02000000, 0x04000000, 0x08000000,
  0x10000000, 0x20000000, 0x40000000]

/-- AES-256 key expansion from 8 to 60 words (fuel 52). -/
def keyExpand : Nat → List Nat → List Nat
  | 0, w => w
  | fuel + 1, w =>
    let i := w.length
    let temp := w.getD (i - 1) 0
    let temp :=
      if i % 8 = 0 then xor32 (subWord (rotWord temp)) (rcon.getD (i / 8) 0)
      else if i % 8 = 4 then subWord temp
      else temp
    keyExpand fuel (w ++ [xor32 (w.getD (i - 8) 0) temp])

/-- The 60 round-key words of AES-256 from a 32-byte key. -/
def aes256KeyWords (key : List Nat) : List Nat :=
  keyExpand 52 ((chunks 4 key).map bytesToWordBE)

/-- The 16 bytes of round key `r`. -/
def roundKeyBytes (ws : List Nat) (r : Nat) : List Nat :=
  ((ws.drop (4 * r)).take 4).foldr (fun w acc => wordToBytesBE w ++ acc) []

/-- Bytewise XOR of two equal-length byte strings. -/
def xorBytes (st rk : List Nat) : List Nat :=
  (st.zip rk).map (fun p => xor8 p.1 p.2)

/-- `SubBytes`. -/
def subBytes (st : List Nat) : List Nat := st.map sboxAt

/-- `ShiftRows` in column-major order: `state[4c+r] := state[4*((c+r) mod 4) + r]`. -/
def shiftRows (st : List Nat) : List Nat :=
  (List.range 16).map (fun i =>
    st.getD (4 * ((i / 4 + i % 4) % 4) + i % 4) 0)

/-- Multiplication by `x` in GF(2^8). -/
def xtime (b : Nat) : Nat :=
  if b < 128 then 2 * b else xor8 (2 * b % 256) 0x1b

/-- Multiplication by `x + 1` in GF(2^8). -/
def mul3 (b : Nat) : Nat := xor8 (xtime b) b

/-- `MixColumns` on one column. -/
def mixColumn (a : List Nat) : List Nat :=
  match a with
  | [a0, a1, a2, a3] =>
    [xor8 (xtime a0) (xor8 (mul3 a1) (xor8 a2 a3)),
     xor8 a0 (xor8 (xtime a1) (xor8 (mul3 a2) a3)),
     xor8 a0 (xor8 a1 (xor8 (xtime a2) (mul3 a3))),
     xor8 (mul3 a0) (xor8 a1 (xor8 a2 (xtime a3)))]
  | a => a

/-- `MixColumns`. -/
def mixColumns (st : List Nat) : List Nat :=
  ((chunks 4 st).map mixColumn).flatten

/-- AES-256 encryption of one 16-byte block from precomputed key words. -/
def aesEncryptW (ws : List Nat) (block : List Nat) : List Nat :=
  xorBytes (shiftRows (subBytes
    ((List.range 13).foldl (fun st r =>
      xorBytes (mixColumns (shiftRows (subBytes st))) (roundKeyBytes ws (r + 1)))
      (xorBytes block (roundKeyBytes ws 0)))))
    (roundKeyBytes ws 14)

/-- The eight bits of a byte, least significant first (the `fpe`
crate's `BinaryNumeralString::from_bytes_le` order). -/
def byteBits (b : Nat) : List Nat :=
  [b % 2, b / 2 % 2, b / 4 % 2, b / 8 % 2, b / 16 % 2, b / 32 % 2, b / 64 % 2, b / 128 % 2]

/-- A byte string as a bit string, LSB of byte 0 first. -/
def bytesToBits : List Nat → List Nat
  | [] => []
  | b :: bs => byteBits b ++ bytesToBits bs

/-- A byte from eight bits, least significant first. -/
def byteOfBits (c : List Nat) : Nat := c.foldr (fun b acc => b + 2 * acc) 0

/-- Split a bit string into groups of eight (structurally). -/
def chunks8 : List Nat → List (List Nat)
  | b0 :: b1 :: b2 :: b3 :: b4 :: b5 :: b6 :: b7 :: rest =>
    [b0, b1, b2, b3, b4, b5, b6, b7] :: chunks8 rest
  | [] => []
  | l => [l]

/-- A bit string back to bytes (`BinaryNumeralString::to_bytes_le`). -/
def bitsToBytes (bits : List Nat) : List Nat := (chunks8 bits).map byteOfBits

/-- NUM over a numeral string, first numeral most significant
(NIST SP 800-38G). -/
def numBE (radix : Nat) (xs : List Nat) : Nat :=
  xs.foldl (fun a x => a * radix + x) 0

/-- STR: `m` numerals of `x`, first numeral most significant. -/
def strBE (radix : Nat) : Nat → Nat → List Nat
  | 0, _ => []
  | m + 1, x => x / radix ^ m % radix :: strBE radix m x

/-- `len` big-endian bytes of `x`. -/
def beBytes (len x : Nat) : List Nat := strBE 256 len x

/-- CBC-MAC under AES (the `PRF` of SP 800-38G, zero IV). -/
def cbcMac (ws : List Nat) (msg : List Nat) : List Nat :=
  (chunks 16 msg).foldl (fun acc blk => aesEncryptW ws (xorBytes acc blk))
    (List.replicate 16 0)

/-- The FF1 block `P` for radix 2, 10 rounds, empty tweak:
`[1, 2, 1, 0, 0, 2, 10, u mod 256] ++ BE4(n) ++ BE4(t)` with `t = 0`. -/
def ff1P (u n : Nat) : List Nat :=
  [1, 2, 1, 0, 0, 2, 10, u % 256] ++ beBytes 4 n ++ beBytes 4 0

/-- The FF1 round value `y`: pad `Q` to a block multiple, CBC-MAC, extend
to `d` bytes, read big-endian.  `X` is the half-string entering the round. -/
def ff1Y (ws : List Nat) (b d : Nat) (P : List Nat) (i : Nat) (X : List Nat) : Nat :=
  numBE 256 ((cbcMac ws (P ++ (List.replicate ((16 - (b + 1) % 16) % 16) 0 ++ [i] ++
    beBytes b (numBE 2 X))) ++ aesEncryptW ws (xorBytes
      (cbcMac ws (P ++ (List.replicate ((16 - (b + 1) % 16) % 16) 0 ++ [i] ++
        beBytes b (numBE 2 X)))) (beBytes 16 1))).take d)

/-- One FF1 encryption round: `(A, B) ↦ (B, STR_m((NUM(A) + y) mod 2^m))`
with `m = u` for even rounds and `m = v` for odd ones. -/
def ff1EncRound (ws : List Nat) (u v b d : Nat) (P : List Nat)
    (st : List Nat × List Nat) (i : Nat) : List Nat × List Nat :=
  (st.2, strBE 2 (if i % 2 = 0 then u else v)
    ((numBE 2 st.1 + ff1Y ws b d P i st.2) % 2 ^ (if i % 2 = 0 then u else v)))

/-- One FF1 decryption round, the inverse of `ff1EncRound` (subtraction
mod `2^m` written in `Nat` as addition of the complement). -/
def ff1DecRound (ws : List Nat) (u v b d : Nat) (P : List Nat)
    (st : List Nat × List Nat) (i : Nat) : List Nat × List Nat :=
  (strBE 2 (if i % 2 = 0 then u else v)
    ((numBE 2 st.2 + (2 ^ (if i % 2 = 0 then u else v) -
      ff1Y ws b d P i st.1 % 2 ^ (if i % 2 = 0 then u else v))) %
        2 ^ (if i % 2 = 0 then u else v)), st.1)

/-- Concatenate the two half-strings. -/
def pairCat : List Nat × List Nat → List Nat
  | (a, b) => a ++ b

/-- FF1 half length `u = ⌊n/2⌋`. -/
def ff1U (n : Nat) : Nat := n / 2

/-- FF1 half length `v = n - u`. -/
def ff1V (n : Nat) : Nat := n - n / 2

/-- FF1 byte count `b = ⌈v·log₂(radix)/8⌉ = ⌈v/8⌉` at radix 2. -/
def ff1B (n : Nat) : Nat := (ff1V n + 7) / 8

/-- FF1 block-extension count `d = 4⌈b/4⌉ + 4`. -/
def ff1D (n : Nat) : Nat := 4 * ((ff1B n + 3) / 4) + 4

/-- FF1 encryption of a bit string (radix 2, 10 rounds, empty tweak). -/
def ff1EncryptBits (ws : List Nat) (x : List Nat) : List Nat :=
  pairCat ((List.range 10).foldl
    (ff1EncRound ws (ff1U x.length) (ff1V x.length) (ff1B x.length) (ff1D x.length)
      (ff1P (ff1U x.length) x.length))
    (x.take (ff1U x.length), x.drop (ff1U x.length)))

/-- FF1 decryption of a bit string: the rounds in reverse. -/
def ff1DecryptBits (ws : List Nat) (x : List Nat) : List Nat :=
  pairCat ((List.range 10).reverse.foldl
    (ff1DecRound ws (ff1U x.length) (ff1V x.length) (ff1B x.length) (ff1D x.length)
      (ff1P (ff1U x.length) x.length))
    (x.take (ff1U x.length), x.drop (ff1U x.length)))

/-- `ff1.encrypt(&[], &BinaryNumeralString::from_bytes_le(bs)).to_bytes_le()`. -/
def ff1EncryptBytes (ws bs : List Nat) : List Nat :=
  bitsToBytes (ff1EncryptBits ws (bytesToBits bs))

/-- The corresponding decryption. -/
def ff1DecryptBytes (ws bs : List Nat) : List Nat :=
  bitsToBytes (ff1DecryptBits ws (bytesToBits bs))

/-- The bytes of a string (the repo's keys and labels are ASCII). -/
def strBytes (s : String) : List Nat := s.data.map Char.toNat

/-- The 60 AES-256 round-key words of the FF1 subkey derived for name
`"test"` and master key `"Test key here"` (`c9_literal_vectors` proves
them equal to `aes256KeyWords (hkdfExpand32 key "test/ff1")`). -/
def testFf1Words : List Nat :=
  [1849599924, 2697735542, 3466295679, 2876361184, 2262514305, 806184796, 1682275001,
   3099153951, 965699544, 2571324078, 1473786833, 4238998065, 906499910, 101019674,
   1648364195, 3673775292, 2730820239, 998656033, 1818131440, 2432139713, 1449139006,
   1348823844, 841310599, 3906747707, 551739412, 459581493, 2000344005, 3888992772,
   3269270476, 2461561064, 2694648175, 1212230740, 2878586950, 2969004147, 3352148918,
   536930738, 1975387643, 3875960083, 1201366140, 265963560, 3972133936, 1547082819,
   2616928245, 3153841735, 2679213659, 2025323336, 1059888948, 821483292, 2395957300,
   3539596407, 1224921986, 4076412357, 371731197, 1855967669, 1370705537, 1631951261,
   2686531291, 1926808236, 1004146990, 3374517483]

/-- The HMAC subkey derived for name `"test"` and master key
`"Test key here"` (`c9_literal_vectors` proves it equal to
`hkdfExpand32 key "test/hmac"`). -/
def testMacKey : List Nat :=
  [96, 66, 179, 206, 166, 196, 185, 203, 241, 129, 59, 196, 204, 213, 208, 1,
   248, 86, 82, 79, 63, 155, 131, 132, 190, 85, 202, 178, 211, 36, 30, 199]

/-! ### Lemmas on little-endian serialization -/

theorem toLeBytes_length (l n : Nat) : (toLeBytes l n).length = l := by
  induction l generalizing n with
  | zero => rfl
  | succ l ih => simp [toLeBytes, ih]

theorem toLeBytes_lt (l n : Nat) : ∀ b ∈ toLeBytes l n, b < 256 := by
  induction l generalizing n with
  | zero => intro b hb; simp [toLeBytes] at hb
  | succ l ih =>
    intro b hb
    simp only [toLeBytes, List.mem_cons] at hb
    rcases hb with h | h
    · rw [h]; exact Nat.mod_lt _ (by omega)
    · exact ih _ b h

theorem leVal_toLeBytes (l n : Nat) : leVal (toLeBytes l n) = n % 256 ^ l := by
  induction l generalizing n with
  | zero => simp [toLeBytes, leVal, Nat.mod_one]
  | succ l ih =>
    simp only [toLeBytes, leVal, ih]
    rw [Nat.pow_succ, Nat.mul_comm (256 ^ l) 256, Nat.mod_mul]

theorem toLeBytes_zero (l : Nat) : toLeBytes l 0 = List.replicate l 0 := by
  induction l with
  | zero => rfl
  | succ l ih => simp [toLeBytes, ih, List.replicate]

theorem toLeBytes_leVal (l : Nat) (bs : List Nat) (hl : bs.length = l)
    (hb : ∀ b ∈ bs, b < 256) : toLeBytes l (leVal bs) = bs := by
  induction l generalizing bs with
  | zero => cases bs with
    | nil => rfl
    | cons b bs => simp at hl
  | succ l ih =>
    cases bs with
    | nil => simp at hl
    | cons b bs =>
      have hblt : b < 256 := hb b (List.mem_cons_self b bs)
      have h1 : (b + 256 * leVal bs) % 256 = b := by omega
      have h2 : (b + 256 * leVal bs) / 256 = leVal bs := by omega
      have h3 : bs.length = l := by simpa using hl
      simp only [leVal, toLeBytes, h1, h2]
      rw [ih bs h3 (fun x hx => hb x (List.mem_cons_of_mem b hx))]

theorem leVal_lt (bs : List Nat) (hb : ∀ b ∈ bs, b < 256) :
    leVal bs < 256 ^ bs.length := by
  induction bs with
  | nil => simp [leVal]
  | cons b bs ih =>
    have hblt : b < 256 := hb b (List.mem_cons_self b bs)
    have ht : leVal bs < 256 ^ bs.length :=
      ih (fun x hx => hb x (List.mem_cons_of_mem b hx))
    simp only [leVal, List.length_cons, Nat.pow_succ]
    calc b + 256 * leVal bs < 256 + 256 * leVal bs := by omega
    _ = 256 * (leVal bs + 1) := by ring
    _ ≤ 256 * 256 ^ bs.length := by
        exact Nat.mul_le_mul_left 256 ht
    _ = 256 ^ bs.length * 256 := by ring

theorem toLeBytes_take (l k n : Nat) :
    (toLeBytes l n).take k = toLeBytes (min k l) n := by
  induction l generalizing k n with
  | zero => simp [toLeBytes]
  | succ l ih =>
    cases k with
    | zero => simp [toLeBytes]
    | succ k =>
      have hmin : min (k + 1) (l + 1) = min k l + 1 := by omega
      rw [hmin]
      simp only [toLeBytes]
      rw [List.take_succ_cons, ih]

/-! ### Lemmas on `rposition` and `last_nonzero` -/

theorem rposition_eq_none {p : α → Bool} {xs : List α} :
    rposition p xs = none ↔ ∀ x ∈ xs, p x = false := by
  induction xs with
  | nil => simp [rposition]
  | cons x xs ih =>
    constructor
    · intro h y hy
      cases hr : rposition p xs with
      | none =>
        simp only [rposition, hr] at h
        rcases List.mem_cons.mp hy with rfl | hy2
        · by_cases hp : p y = true
          · rw [if_pos hp] at h; cases h
          · exact Bool.eq_false_iff.mpr hp
        · exact ih.mp hr y hy2
      | some i =>
        simp only [rposition, hr] at h
        exact Option.noConfusion h
    · intro hall
      have hxs : rposition p xs = none :=
        ih.mpr (fun y hy => hall y (List.mem_cons_of_mem x hy))
      simp only [rposition, hxs]
      rw [if_neg]
      simp [hall x (List.mem_cons_self x xs)]

theorem rposition_cons (p : α → Bool) (x : α) (xs : List α) :
    rposition p (x :: xs) =
      match rposition p xs with
      | some i => some (i + 1)
      | none => if p x then some 0 else none := rfl

theorem rposition_append_some (p : α → Bool) (xs ys : List α) (i : Nat)
    (h : rposition p ys = some i) :
    rposition p (xs ++ ys) = some (xs.length + i) := by
  induction xs with
  | nil => rw [List.nil_append, h]; simp
  | cons x xs ih =>
    rw [List.cons_append, rposition_cons, ih]
    simp only [List.length_cons]
    show some (xs.length + i + 1) = some (xs.length + 1 + i)
    congr 1
    omega

theorem rposition_append_none (p : α → Bool) (xs ys : List α)
    (h : rposition p ys = none) :
    rposition p (xs ++ ys) = rposition p xs := by
  induction xs with
  | nil =>
    rw [List.nil_append, h]
    rfl
  | cons x xs ih =>
    rw [List.cons_append, rposition_cons, ih, rposition_cons]

theorem rposition_replicate_zero (k : Nat) :
    rposition (fun b => b ≠ 0) (List.replicate k (0 : Nat)) = none := by
  rw [rposition_eq_none]
  intro x hx
  rw [List.eq_of_mem_replicate hx]
  simp

theorem last_nonzero_sentinel (P : List Nat) (k s : Nat) (hs : s ≠ 0) :
    last_nonzero (P ++ s :: List.replicate k 0) = P.length := by
  unfold last_nonzero
  have h1 : rposition (fun b => b ≠ 0) (s :: List.replicate k (0 : Nat)) = some 0 := by
    rw [rposition_cons, rposition_replicate_zero]
    simp [hs]
  rw [rposition_append_some _ _ _ _ h1]
  simp

theorem last_nonzero_replicate_zero (k : Nat) :
    last_nonzero (List.replicate k (0 : Nat)) = 0 := by
  unfold last_nonzero
  rw [rposition_replicate_zero]
  rfl

/-! ### `getD` helpers -/

theorem getD_append_length (xs : List Nat) (y : Nat) (ys : List Nat) :
    (xs ++ y :: ys).getD xs.length 0 = y := by
  induction xs with
  | nil => rfl
  | cons x xs ih => simpa using ih

theorem getD_append_lt (xs ys : List Nat) (n : Nat) (h : n < xs.length) :
    (xs ++ ys).getD n 0 = xs.getD n 0 := by
  induction xs generalizing n with
  | nil => simp at h
  | cons x xs ih =>
    cases n with
    | zero => rfl
    | succ n =>
      have h2 : n < xs.length := by simpa using h
      simp only [List.cons_append, List.getD_cons_succ]
      exact ih n h2

theorem getD_replicate_zero (k j : Nat) :
    (List.replicate k (0 : Nat)).getD j 0 = 0 := by
  induction k generalizing j with
  | zero => cases j <;> rfl
  | succ k ih =>
    cases j with
    | zero => rfl
    | succ j => simp [List.replicate, ih j]

/-! ### `last_nonzero` of a little-endian buffer: the top byte index is `Nat.log 256` -/

theorem rposition_toLeBytes (l : Nat) : ∀ n : Nat, 0 < n → n < 256 ^ l →
    rposition (fun b => b ≠ 0) (toLeBytes l n) = some (Nat.log 256 n) := by
  induction l with
  | zero => intro n h0 hn; simp at hn; omega
  | succ l ih =>
    intro n h0 hn
    show rposition _ (n % 256 :: toLeBytes l (n / 256)) = _
    rw [rposition_cons]
    by_cases h256 : n < 256
    · have hd : n / 256 = 0 := Nat.div_eq_of_lt h256
      rw [hd, toLeBytes_zero, rposition_replicate_zero]
      have hmod : n % 256 = n := Nat.mod_eq_of_lt h256
      have hlog : Nat.log 256 n = 0 := Nat.log_eq_zero_iff.mpr (Or.inl h256)
      rw [hlog, hmod]
      simp
      omega
    · push_neg at h256
      have hdpos : 0 < n / 256 := Nat.div_pos h256 (by omega)
      have hdlt : n / 256 < 256 ^ l := by
        rw [Nat.div_lt_iff_lt_mul (by omega : 0 < 256)]
        calc n < 256 ^ (l + 1) := hn
        _ = 256 ^ l * 256 := by rw [Nat.pow_succ]
      rw [ih (n / 256) hdpos hdlt]
      have hlog : Nat.log 256 (n / 256) + 1 = Nat.log 256 n := by
        have h1 : Nat.log 256 (n / 256) = Nat.log 256 n - 1 := Nat.log_div_base 256 n
        have h2 : 0 < Nat.log 256 n := Nat.log_pos (by omega) h256
        omega
      rw [← hlog]

theorem last_nonzero_toLeBytes (l n : Nat) (hn : n < 256 ^ l) :
    last_nonzero (toLeBytes l n) = Nat.log 256 n := by
  rcases Nat.eq_zero_or_pos n with rfl | h0
  · rw [toLeBytes_zero, last_nonzero_replicate_zero, Nat.log_zero_right]
  · unfold last_nonzero
    rw [rposition_toLeBytes l n h0 hn]
    rfl

theorem log256_lt_8 (n : Nat) (h : n < 2 ^ 64) : Nat.log 256 n < 8 := by
  rcases Nat.eq_zero_or_pos n with rfl | h0
  · rw [Nat.log_zero_right]; omega
  · exact Nat.log_lt_of_lt_pow (by omega) (by norm_num at h ⊢; omega)

/-! ### Lemmas on the base62 text codec -/

theorem b62Digit_b62Char : ∀ d : Nat, d < 62 → b62Digit (b62Char d) = some d := by decide

theorem b62Char_ne_underscore : ∀ d : Nat, d < 62 → b62Char d ≠ '_' := by decide

theorem b62Rev_mem (f : Nat) : ∀ n : Nat, ∀ ch ∈ b62Rev f n, ∃ d, d < 62 ∧ ch = b62Char d := by
  induction f with
  | zero => intro n ch h; simp [b62Rev] at h
  | succ f ih =>
    intro n ch h
    by_cases h0 : n = 0
    · simp [b62Rev, h0] at h
    · simp only [b62Rev, if_neg h0, List.mem_cons] at h
      rcases h with rfl | h
      · exact ⟨n % 62, Nat.mod_lt _ (by omega), rfl⟩
      · exact ih (n / 62) ch h

theorem b62Rev_ne_nil (f n : Nat) (h0 : n ≠ 0) (hf : f ≠ 0) : b62Rev f n ≠ [] := by
  cases f with
  | zero => omega
  | succ f => simp [b62Rev, h0]

theorem base62Encode_mem (n : Nat) : ∀ ch ∈ base62Encode n, ∃ d, d < 62 ∧ ch = b62Char d := by
  intro ch h
  unfold base62Encode at h
  by_cases h0 : n = 0
  · rw [if_pos h0] at h
    simp at h
    exact ⟨0, by omega, by rw [h]; rfl⟩
  · rw [if_neg h0] at h
    exact b62Rev_mem 32 n ch (List.mem_reverse.mp h)

theorem base62Encode_no_underscore (n : Nat) : ∀ ch ∈ base62Encode n, ¬ch = '_' := by
  intro ch h heq
  obtain ⟨d, hd, rfl⟩ := base62Encode_mem n ch h
  exact b62Char_ne_underscore d hd heq

theorem base62Encode_valid (n : Nat) : ∀ ch ∈ base62Encode n, (b62Digit ch).isSome = true := by
  intro ch h
  obtain ⟨d, hd, rfl⟩ := base62Encode_mem n ch h
  rw [b62Digit_b62Char d hd]
  rfl

theorem base62Encode_ne_nil (n : Nat) : base62Encode n ≠ [] := by
  unfold base62Encode
  by_cases h0 : n = 0
  · simp [h0]
  · rw [if_neg h0]
    simp only [ne_eq, List.reverse_eq_nil_iff]
    exact b62Rev_ne_nil 32 n h0 (by omega)

theorem b62ValFrom_nil (acc : Nat) : b62ValFrom acc [] = acc := rfl

theorem b62ValFrom_cons (acc : Nat) (ch : Char) (cs : List Char) :
    b62ValFrom acc (ch :: cs) = b62ValFrom (acc * 62 + (b62Digit ch).getD 0) cs := rfl

theorem b62ValFrom_append (acc : Nat) (xs ys : List Char) :
    b62ValFrom acc (xs ++ ys) = b62ValFrom (b62ValFrom acc xs) ys := by
  unfold b62ValFrom
  rw [List.foldl_append]

theorem b62ValFrom_ge (cs : List Char) : ∀ acc : Nat, acc ≤ b62ValFrom acc cs := by
  induction cs with
  | nil => intro acc; exact Nat.le_refl acc
  | cons ch cs ih =>
    intro acc
    rw [b62ValFrom_cons]
    exact le_trans (by omega) (ih (acc * 62 + (b62Digit ch).getD 0))

theorem b62Go_eq_some (cs : List Char) : ∀ acc : Nat,
    (∀ ch ∈ cs, (b62Digit ch).isSome = true) → b62ValFrom acc cs < 2 ^ 128 →
    b62Go acc cs = some (b62ValFrom acc cs) := by
  induction cs with
  | nil => intro acc _ _; rfl
  | cons ch cs ih =>
    intro acc hval hlt
    obtain ⟨d, hd⟩ := Option.isSome_iff_exists.mp (hval ch (List.mem_cons_self ch cs))
    have hgetD : (b62Digit ch).getD 0 = d := by rw [hd]; rfl
    rw [b62ValFrom_cons, hgetD] at hlt ⊢
    have hacc : acc * 62 + d < 2 ^ 128 := lt_of_le_of_lt (b62ValFrom_ge cs _) hlt
    show (match b62Digit ch with
      | none => none
      | some d => if acc * 62 + d < 2 ^ 128 then b62Go (acc * 62 + d) cs else none) = _
    rw [hd]
    simp only [if_pos hacc]
    exact ih (acc * 62 + d) (fun x hx => hval x (List.mem_cons_of_mem ch hx)) hlt

theorem b62Go_eq_none_iff (cs : List Char) : ∀ acc : Nat, acc < 2 ^ 128 →
    (b62Go acc cs = none ↔
      (∃ ch ∈ cs, b62Digit ch = none) ∨ 2 ^ 128 ≤ b62ValFrom acc cs) := by
  induction cs with
  | nil =>
    intro acc hacc
    rw [b62ValFrom_nil]
    simp [b62Go]
    omega
  | cons ch cs ih =>
    intro acc hacc
    rw [b62ValFrom_cons]
    cases hd : b62Digit ch with
    | none =>
      constructor
      · intro _; exact Or.inl ⟨ch, List.mem_cons_self ch cs, hd⟩
      · intro _
        show (match b62Digit ch with
          | none => none
          | some d => if acc * 62 + d < 2 ^ 128 then b62Go (acc * 62 + d) cs else none) = none
        rw [hd]
    | some d =>
      simp only [Option.getD_some]
      have hgo : b62Go acc (ch :: cs) =
          if acc * 62 + d < 2 ^ 128 then b62Go (acc * 62 + d) cs else none := by
        show (match b62Digit ch with
          | none => none
          | some d => if acc * 62 + d < 2 ^ 128 then b62Go (acc * 62 + d) cs else none) = _
        rw [hd]
      rw [hgo]
      by_cases hlt : acc * 62 + d < 2 ^ 128
      · rw [if_pos hlt, ih (acc * 62 + d) hlt]
        constructor
        · intro h
          rcases h with ⟨x, hx, hbad⟩ | h
          · exact Or.inl ⟨x, List.mem_cons_of_mem ch hx, hbad⟩
          · exact Or.inr h
        · intro h
          rcases h with ⟨x, hx, hbad⟩ | h
          · rcases List.mem_cons.mp hx with rfl | hx2
            · rw [hd] at hbad; exact Option.noConfusion hbad
            · exact Or.inl ⟨x, hx2, hbad⟩
          · exact Or.inr h
      · rw [if_neg hlt]
        constructor
        · intro _
          exact Or.inr (le_trans (by omega) (b62ValFrom_ge cs (acc * 62 + d)))
        · intro _; rfl

theorem b62Go_some_valid (cs : List Char) : ∀ acc v : Nat, b62Go acc cs = some v →
    ∀ ch ∈ cs, (b62Digit ch).isSome = true := by
  induction cs with
  | nil => intro acc v _ ch hch; simp at hch
  | cons c cs ih =>
    intro acc v h ch hch
    have hgo : b62Go acc (c :: cs) =
        match b62Digit c with
        | none => none
        | some d => if acc * 62 + d < 2 ^ 128 then b62Go (acc * 62 + d) cs else none := rfl
    rw [hgo] at h
    cases hd : b62Digit c with
    | none => rw [hd] at h; exact Option.noConfusion h
    | some d =>
      rw [hd] at h
      have h2 : (if acc * 62 + d < 2 ^ 128 then b62Go (acc * 62 + d) cs else none) =
          some v := h
      by_cases hlt : acc * 62 + d < 2 ^ 128
      · rw [if_pos hlt] at h2
        rcases List.mem_cons.mp hch with rfl | hch2
        · rw [hd]; rfl
        · exact ih (acc * 62 + d) v h2 ch hch2
      · rw [if_neg hlt] at h2; exact Option.noConfusion h2

theorem base62Decode_ne_nil (cs : List Char) (h : cs ≠ []) :
    base62Decode cs = b62Go 0 cs := by
  cases cs with
  | nil => exact absurd rfl h
  | cons c cs => rfl

theorem b62ValFrom_rev (f : Nat) : ∀ n acc : Nat, n < 62 ^ f →
    b62ValFrom acc ((b62Rev f n).reverse) =
      acc * 62 ^ (b62Rev f n).length + n := by
  induction f with
  | zero =>
    intro n acc h
    simp only [Nat.pow_zero, Nat.lt_one_iff] at h
    subst h
    simp [b62Rev, b62ValFrom]
  | succ f ih =>
    intro n acc h
    by_cases h0 : n = 0
    · subst h0
      simp [b62Rev, b62ValFrom]
    · rw [show b62Rev (f + 1) n = b62Char (n % 62) :: b62Rev f (n / 62) from
        by simp [b62Rev, h0]]
      rw [List.reverse_cons, b62ValFrom_append]
      have hdiv : n / 62 < 62 ^ f := by
        rw [Nat.div_lt_iff_lt_mul (by omega : 0 < 62)]
        calc n < 62 ^ (f + 1) := h
        _ = 62 ^ f * 62 := by rw [Nat.pow_succ]
      rw [ih (n / 62) acc hdiv]
      rw [b62ValFrom_cons, b62ValFrom_nil]
      rw [b62Digit_b62Char (n % 62) (Nat.mod_lt _ (by omega))]
      simp only [Option.getD_some, List.length_cons, Nat.pow_succ]
      have hdm : 62 * (n / 62) + n % 62 = n := Nat.div_add_mod n 62
      have hL : (0 : Nat) < 62 ^ (b62Rev f (n / 62)).length := Nat.pos_pow_of_pos _ (by omega)
      generalize 62 ^ (b62Rev f (n / 62)).length = L at *
      calc (acc * L + n / 62) * 62 + n % 62
          = acc * (L * 62) + (62 * (n / 62) + n % 62) := by ring
      _ = acc * (L * 62) + n := by rw [hdm]

theorem base62_roundtrip (n : Nat) (h : n < 2 ^ 128) :
    base62Decode (base62Encode n) = some n := by
  by_cases h0 : n = 0
  · subst h0; decide
  · have hne : base62Encode n ≠ [] := base62Encode_ne_nil n
    rw [base62Decode_ne_nil _ hne]
    have hval : ∀ ch ∈ base62Encode n, (b62Digit ch).isSome = true := base62Encode_valid n
    have hn62 : n < 62 ^ 32 := lt_of_lt_of_le h (by norm_num)
    have henc : base62Encode n = (b62Rev 32 n).reverse := by
      unfold base62Encode; rw [if_neg h0]
    have hvf : b62ValFrom 0 (base62Encode n) = n := by
      rw [henc, b62ValFrom_rev 32 n 0 hn62]
      simp
    rw [b62Go_eq_some (base62Encode n) 0 hval (by rw [hvf]; exact h), hvf]

theorem base62Decode_eq_none_iff (cs : List Char) :
    base62Decode cs = none ↔
      cs = [] ∨ (∃ ch ∈ cs, b62Digit ch = none) ∨ 2 ^ 128 ≤ b62ValFrom 0 cs := by
  cases cs with
  | nil => simp [base62Decode]
  | cons c cs =>
    rw [base62Decode_ne_nil _ (by simp)]
    rw [b62Go_eq_none_iff (c :: cs) 0 (by norm_num)]
    simp

theorem base62Decode_some_valid (cs : List Char) (v : Nat)
    (h : base62Decode cs = some v) : ∀ ch ∈ cs, (b62Digit ch).isSome = true := by
  cases cs with
  | nil => intro ch hch; simp at hch
  | cons c cs =>
    rw [base62Decode_ne_nil _ (by simp)] at h
    exact b62Go_some_valid (c :: cs) 0 v h

/-! ### The prefix check of `Codec::decode` -/

theorem rposition_underscore_clean (nm : String) (tail : List Char)
    (ht : ∀ ch ∈ tail, ¬ch = '_') :
    rposition (fun ch => ch = '_') ((nm ++ "_").data ++ tail) =
      some nm.data.length := by
  have h1 : rposition (fun ch => ch = '_') tail = none :=
    rposition_eq_none.mpr (fun x hx => by simpa using ht x hx)
  rw [rposition_append_none _ _ _ h1]
  rw [String.data_append]
  rw [show ("_" : String).data = ['_'] from rfl]
  rw [rposition_append_some _ _ _ 0 (by rfl)]
  simp

theorem decodeReceived_clean (encoded nm : String) (tail : List Char)
    (hdata : encoded.data = (nm ++ "_").data ++ tail)
    (ht : ∀ ch ∈ tail, ¬ch = '_') :
    decodeReceived encoded = nm ++ "_" := by
  unfold decodeReceived
  rw [hdata, rposition_underscore_clean nm tail ht]
  show String.mk (((nm ++ "_").data ++ tail).take (nm.data.length + 1)) = nm ++ "_"
  have hlen : (nm ++ "_").data.length = nm.data.length + 1 := by
    rw [String.data_append]
    simp [show ("_" : String).data = ['_'] from rfl]
  rw [List.take_left' hlen]

theorem decode_clean (c : Codec) (nm : String) (tail : List Char)
    (hpre : c.pre = nm ++ "_") (ht : ∀ ch ∈ tail, ¬ch = '_') :
    decode c (c.pre ++ String.mk tail) = decodeTail c tail := by
  have hdata : (c.pre ++ String.mk tail).data = (nm ++ "_").data ++ tail := by
    rw [String.data_append, hpre]
  unfold decode
  rw [decodeReceived_clean _ nm tail hdata ht]
  rw [if_pos hpre.symm]
  congr 1
  have hdlen : (nm ++ "_").data.length = c.pre.data.length := by rw [hpre]
  rw [hdata, List.drop_left' hdlen]

/-! ### The encoding pipeline, step by step -/

theorem pow_256_8 : (256 : Nat) ^ 8 = 2 ^ 64 := by norm_num

theorem num_to_le_vec_length (n zp : Nat) (hzp : zp ≤ 8) (hn : n < 2 ^ 64) :
    (num_to_le_vec n zp).length = max (Nat.log 256 n + 1) zp := by
  unfold num_to_le_vec
  rw [List.length_take, toLeBytes_length]
  rw [last_nonzero_toLeBytes 8 n (by rw [pow_256_8]; exact hn)]
  have := log256_lt_8 n hn
  omega

theorem num_to_le_vec_lt (n zp : Nat) : ∀ b ∈ num_to_le_vec n zp, b < 256 := by
  intro b hb
  exact toLeBytes_lt 8 n b (List.take_subset _ _ hb)

theorem num_to_le_vec_ne_nil (n zp : Nat) : num_to_le_vec n zp ≠ [] := by
  unfold num_to_le_vec
  intro h
  have hlen := congrArg List.length h
  rw [List.length_take, toLeBytes_length, List.length_nil] at hlen
  have hmax : 1 ≤ max (last_nonzero (toLeBytes 8 n) + 1) zp :=
    le_trans (by omega) (Nat.le_max_left _ _)
  have hmin : 1 ≤ min (max (last_nonzero (toLeBytes 8 n) + 1) zp) 8 :=
    le_min hmax (by omega)
  rw [hlen] at hmin
  exact absurd hmin (by omega)

theorem leVal_num_to_le_vec (n zp : Nat) (hzp : zp ≤ 8) (hn : n < 2 ^ 64) :
    leVal (num_to_le_vec n zp) = n := by
  unfold num_to_le_vec
  rw [last_nonzero_toLeBytes 8 n (by rw [pow_256_8]; exact hn)]
  rw [toLeBytes_take, leVal_toLeBytes]
  have hlog := log256_lt_8 n hn
  have hlt : n < 256 ^ (Nat.log 256 n + 1) := Nat.lt_pow_succ_log_self (by omega) n
  have hle : 256 ^ (Nat.log 256 n + 1) ≤ 256 ^ (min (max (Nat.log 256 n + 1) zp) 8) :=
    Nat.pow_le_pow_right (by omega) (by omega)
  exact Nat.mod_eq_of_lt (lt_of_lt_of_le hlt hle)

theorem encrypt_number_eq (fpe : Fpe) (mac : MacF) (hl zp n : Nat) (ct : List Nat)
    (h : fpe.enc (num_to_le_vec n zp) = some ct) :
    encrypt_number fpe mac hl zp n = some (ct ++ (mac.mac ct).take hl) := by
  unfold encrypt_number
  rw [h]

theorem encrypt_number_some (fpe : Fpe) (mac : MacF) (hl zp n : Nat)
    (hhl : hl ≤ 8) (hzp : zp ≤ 8) (hn : n < 2 ^ 64) :
    ∃ P, encrypt_number fpe mac hl zp n = some P ∧
      P.length = max (Nat.log 256 n + 1) zp + hl ∧ (∀ b ∈ P, b < 256) := by
  obtain ⟨ct, hct⟩ := Option.isSome_iff_exists.mp
    (fpe.encTotal (num_to_le_vec n zp) (num_to_le_vec_ne_nil n zp))
  refine ⟨ct ++ (mac.mac ct).take hl, encrypt_number_eq fpe mac hl zp n ct hct, ?_, ?_⟩
  · rw [List.length_append, List.length_take, mac.macLen ct]
    rw [fpe.encLen _ _ hct, num_to_le_vec_length n zp hzp hn]
    omega
  · intro b hb
    rcases List.mem_append.mp hb with h | h
    · exact fpe.encBytes _ _ hct (num_to_le_vec_lt n zp) b h
    · exact mac.macBytes ct b (List.take_subset _ _ h)

/-! ### The 16-byte sentinel buffer, packing and unpacking -/

theorem packBuf_of_lt (P : List Nat) (h : P.length < 16) :
    packBuf P = P ++ 1 :: List.replicate (16 - (P.length + 1)) 0 := by
  unfold packBuf MAX_BUFFER SENTINEL
  rw [if_pos h]

theorem packBuf_of_not_lt (P : List Nat) (h : ¬P.length < 16) : packBuf P = P := by
  unfold packBuf MAX_BUFFER
  rw [if_neg h]

theorem packBuf_length (P : List Nat) (h : P.length ≤ 16) :
    (packBuf P).length = 16 := by
  by_cases hlt : P.length < 16
  · rw [packBuf_of_lt P hlt]
    simp only [List.length_append, List.length_cons, List.length_replicate]
    omega
  · rw [packBuf_of_not_lt P hlt]
    omega

theorem packBuf_bytes (P : List Nat) (hP : ∀ b ∈ P, b < 256) :
    ∀ b ∈ packBuf P, b < 256 := by
  intro b hb
  by_cases hlt : P.length < 16
  · rw [packBuf_of_lt P hlt] at hb
    rcases List.mem_append.mp hb with h | h
    · exact hP b h
    · rcases List.mem_cons.mp h with rfl | h2
      · omega
      · rw [List.eq_of_mem_replicate h2]; omega
  · rw [packBuf_of_not_lt P hlt] at hb
    exact hP b hb

theorem decodeNum_packed (c : Codec) (P : List Nat) (hP : ∀ b ∈ P, b < 256)
    (hlen : P.length < 16) (hcfg : c.hmac_length + c.zero_pad_length < 16) :
    decodeNum c (leVal (packBuf P)) = decrypt_number c P := by
  have hbuf := packBuf_of_lt P hlen
  have hblen : (packBuf P).length = 16 := packBuf_length P (by omega)
  have hbb : ∀ b ∈ packBuf P, b < 256 := packBuf_bytes P hP
  unfold decodeNum MAX_BUFFER SENTINEL
  rw [if_pos hcfg]
  rw [toLeBytes_leVal 16 (packBuf P) hblen hbb]
  rw [hbuf]
  rw [last_nonzero_sentinel P _ 1 (by omega)]
  rw [getD_append_length]
  rw [if_neg (by omega)]
  rw [List.take_left]

theorem decodeNum_full (c : Codec) (P : List Nat) (hP : ∀ b ∈ P, b < 256)
    (hlen : P.length = 16) (hcfg : ¬c.hmac_length + c.zero_pad_length < 16) :
    decodeNum c (leVal P) = decrypt_number c P := by
  unfold decodeNum MAX_BUFFER
  rw [if_neg hcfg]
  rw [toLeBytes_leVal 16 P hlen hP]
  rw [show (16 : Nat) = P.length from hlen.symm, List.take_length]

theorem decrypt_number_roundtrip (c : Codec) (pt ct : List Nat)
    (hptb : ∀ b ∈ pt, b < 256)
    (henc : c.fpe.enc pt = some ct) (hhl : c.hmac_length ≤ 8)
    (hzp : c.zero_pad_length ≤ pt.length) (hpt8 : pt.length ≤ 8) :
    decrypt_number c (ct ++ (c.hmac.mac ct).take c.hmac_length) =
      some (DResult.ok (leVal pt)) := by
  have hctlen : ct.length = pt.length := c.fpe.encLen pt ct henc
  have htmlen : ((c.hmac.mac ct).take c.hmac_length).length = c.hmac_length := by
    rw [List.length_take, c.hmac.macLen ct]
    omega
  have hlen : (ct ++ (c.hmac.mac ct).take c.hmac_length).length =
      pt.length + c.hmac_length := by
    rw [List.length_append, hctlen, htmlen]
  unfold decrypt_number
  rw [if_neg (by omega)]
  have hsplit : (ct ++ (c.hmac.mac ct).take c.hmac_length).length - c.hmac_length =
      ct.length := by omega
  rw [hsplit, List.take_left, List.drop_left]
  rw [if_neg (by simp)]
  rw [c.fpe.decEnc pt ct hptb henc]
  show (match le_vec_to_num pt with
    | none => none
    | some n => some (DResult.ok n)) = some (DResult.ok (leVal pt))
  unfold le_vec_to_num
  rw [if_pos hpt8]

/-! ### Claim C1: the round-trip property -/

/-- C1 (amended): for every `u64` `n` and every codec with a valid config
whose `hmac_length < 8` or `zero_pad_length = 8`, decoding the token
produced by encoding `n` returns `Ok(n)`.  (The restriction is forced by
`c1_counterexample`: with `hmac_length = 8` and `zero_pad_length < 8` a
large `n` yields a sentinel-less 16-byte payload that the sentinel-search
branch of `decode` then rejects.) -/
theorem c1_roundtrip_amended (c : Codec) (nm : String) (n : Nat)
    (hpre : c.pre = nm ++ "_") (hhl : c.hmac_length ≤ 8) (hzp : c.zero_pad_length ≤ 8)
    (hok : c.hmac_length < 8 ∨ c.zero_pad_length = 8) (hn : n < 2 ^ 64) :
    ∃ t, encode c n = some t ∧ decode c t = some (DResult.ok n) := by
  obtain ⟨ct, hct⟩ := Option.isSome_iff_exists.mp
    (c.fpe.encTotal (num_to_le_vec n c.zero_pad_length) (num_to_le_vec_ne_nil n _))
  have henc_num : encrypt_number c.fpe c.hmac c.hmac_length c.zero_pad_length n =
      some (ct ++ (c.hmac.mac ct).take c.hmac_length) :=
    encrypt_number_eq _ _ _ _ _ ct hct
  have hlog := log256_lt_8 n hn
  have hptlen : (num_to_le_vec n c.zero_pad_length).length =
      max (Nat.log 256 n + 1) c.zero_pad_length := num_to_le_vec_length n _ hzp hn
  have hpt8 : (num_to_le_vec n c.zero_pad_length).length ≤ 8 := by omega
  have hctlen : ct.length = (num_to_le_vec n c.zero_pad_length).length :=
    c.fpe.encLen _ _ hct
  have htm : ((c.hmac.mac ct).take c.hmac_length).length = c.hmac_length := by
    rw [List.length_take, c.hmac.macLen]; omega
  have hPlen : (ct ++ (c.hmac.mac ct).take c.hmac_length).length =
      (num_to_le_vec n c.zero_pad_length).length + c.hmac_length := by
    rw [List.length_append, hctlen, htm]
  have hPlen16 : (ct ++ (c.hmac.mac ct).take c.hmac_length).length ≤ 16 := by omega
  have hPbytes : ∀ b ∈ ct ++ (c.hmac.mac ct).take c.hmac_length, b < 256 := by
    intro b hb
    rcases List.mem_append.mp hb with h | h
    · exact c.fpe.encBytes _ _ hct (num_to_le_vec_lt n _) b h
    · exact c.hmac.macBytes ct b (List.take_subset _ _ h)
  have hu128 : encode_u128 c n =
      some (leVal (packBuf (ct ++ (c.hmac.mac ct).take c.hmac_length))) := by
    unfold encode_u128 MAX_BUFFER
    rw [henc_num]
    show (if (ct ++ (c.hmac.mac ct).take c.hmac_length).length ≤ 16 then
        some (leVal (packBuf (ct ++ (c.hmac.mac ct).take c.hmac_length))) else none) =
      some (leVal (packBuf (ct ++ (c.hmac.mac ct).take c.hmac_length)))
    rw [if_pos hPlen16]
  have hv : leVal (packBuf (ct ++ (c.hmac.mac ct).take c.hmac_length)) < 2 ^ 128 := by
    have h1 := leVal_lt _ (packBuf_bytes _ hPbytes)
    rw [packBuf_length _ hPlen16] at h1
    calc leVal (packBuf (ct ++ (c.hmac.mac ct).take c.hmac_length)) < 256 ^ 16 := h1
    _ = 2 ^ 128 := by norm_num
  have hdec : decrypt_number c (ct ++ (c.hmac.mac ct).take c.hmac_length) =
      some (DResult.ok n) := by
    have h2 := decrypt_number_roundtrip c (num_to_le_vec n c.zero_pad_length) ct
      (num_to_le_vec_lt n _) hct hhl (by omega) hpt8
    rw [leVal_num_to_le_vec n _ hzp hn] at h2
    exact h2
  refine ⟨c.pre ++ String.mk (base62Encode
    (leVal (packBuf (ct ++ (c.hmac.mac ct).take c.hmac_length)))), ?_, ?_⟩
  · unfold encode
    rw [hu128]
  · rw [decode_clean c nm _ hpre (base62Encode_no_underscore _)]
    unfold decodeTail
    rw [base62_roundtrip _ hv]
    show decodeNum c (leVal (packBuf (ct ++ (c.hmac.mac ct).take c.hmac_length))) =
      some (DResult.ok n)
    by_cases hcfg : c.hmac_length + c.zero_pad_length < 16
    · have hhl8 : c.hmac_length < 8 := by
        rcases hok with h | h
        · exact h
        · omega
      have hPlt : (ct ++ (c.hmac.mac ct).take c.hmac_length).length < 16 := by omega
      rw [decodeNum_packed c _ hPbytes hPlt hcfg]
      exact hdec
    · have hPeq : (ct ++ (c.hmac.mac ct).take c.hmac_length).length = 16 := by
        rw [hPlen, hptlen]
        omega
      rw [packBuf_of_not_lt _ (by omega)]
      rw [decodeNum_full c _ hPbytes hPeq hcfg]
      exact hdec

/-- C1 counterexample: with the valid config `hmac_length = 8,
zero_pad_length = 0` (both in `0..=8`) and `n = u64::MAX`, decode of the
encoded token is `SentinelMismatch` rather than `Ok(n)`: the 16-byte
payload fills the buffer with no sentinel, but since
`hmac_length + zero_pad_length < 16` the decoder still searches for one. -/
theorem c1_counterexample :
    decode (mkCodec "test_" 8 0) ((encode (mkCodec "test_" 8 0) (2 ^ 64 - 1)).getD "") =
      some (DResult.err (Error.SentinelMismatch 255 1)) ∧
    decode (mkCodec "test_" 8 0) ((encode (mkCodec "test_" 8 0) (2 ^ 64 - 1)).getD "") ≠
      some (DResult.ok (2 ^ 64 - 1)) := by
  constructor
  · decide
  · decide

/-- C1 witness: the amended theorem applied to the default config
`hmac_length = 4, zero_pad_length = 4` and `n = 123`. -/
theorem c1_witness :
    ∃ t, encode (mkCodec "test_" 4 4) 123 = some t ∧
      decode (mkCodec "test_" 4 4) t = some (DResult.ok 123) :=
  c1_roundtrip_amended (mkCodec "test_" 4 4) "test" 123 (by decide) (by decide)
    (by decide) (Or.inl (by decide)) (by decide)

/-! ### Claim C3: encode is total -/

/-- C3: for every `u64` `n` and every codec built from a valid config
(`hmac_length ≤ 8`, `zero_pad_length ≤ 8`), `encode` produces a token:
no error path and no panic.  The plaintext always has at least one byte
(at least 8 bits), which the radix-2 FF1 primitive accepts, and the
payload never exceeds the 16-byte buffer. -/
theorem c3_encode_total (c : Codec) (n : Nat) (hhl : c.hmac_length ≤ 8)
    (hzp : c.zero_pad_length ≤ 8) (hn : n < 2 ^ 64) :
    ∃ t, encode c n = some t := by
  obtain ⟨P, hP, hPlen, _⟩ := encrypt_number_some c.fpe c.hmac _ _ n hhl hzp hn
  have hlog := log256_lt_8 n hn
  have h16 : P.length ≤ 16 := by rw [hPlen]; omega
  have hu : encode_u128 c n = some (leVal (packBuf P)) := by
    unfold encode_u128 MAX_BUFFER
    rw [hP]
    show (if P.length ≤ 16 then some (leVal (packBuf P)) else none) =
      some (leVal (packBuf P))
    rw [if_pos h16]
  refine ⟨c.pre ++ String.mk (base62Encode (leVal (packBuf P))), ?_⟩
  unfold encode
  rw [hu]

/-- C3 witness: the totality theorem applied at the default config and
`n = 5`. -/
theorem c3_witness : ∃ t, encode (mkCodec "test_" 4 4) 5 = some t :=
  c3_encode_total (mkCodec "test_" 4 4) 5 (by decide) (by decide) (by decide)

/-! ### Claim C2: decode can panic (code bug) -/

theorem decrypt_zero9_panics (c : Codec) (hhl : c.hmac_length = 0)
    (hzp : c.zero_pad_length = 0) :
    decrypt_number c [0, 0, 0, 0, 0, 0, 0, 0, 0] = none := by
  unfold decrypt_number
  rw [hhl, hzp]
  rw [if_neg (by decide)]
  rw [show List.take (([0, 0, 0, 0, 0, 0, 0, 0, 0] : List Nat).length - 0)
      [0, 0, 0, 0, 0, 0, 0, 0, 0] = ([0, 0, 0, 0, 0, 0, 0, 0, 0] : List Nat) from by decide]
  rw [show List.drop (([0, 0, 0, 0, 0, 0, 0, 0, 0] : List Nat).length - 0)
      [0, 0, 0, 0, 0, 0, 0, 0, 0] = ([] : List Nat) from by decide]
  rw [if_neg (by simp)]
  obtain ⟨pt, hptc⟩ := Option.isSome_iff_exists.mp
    (c.fpe.decTotal [0, 0, 0, 0, 0, 0, 0, 0, 0] (by decide))
  rw [hptc]
  have hptlen : pt.length = 9 := by rw [c.fpe.decLen _ _ hptc]; rfl
  show (match le_vec_to_num pt with
    | none => none
    | some n => some (DResult.ok n)) = none
  unfold le_vec_to_num
  rw [if_neg (by omega)]

/-- C2 is wrong about the code (code bug): with the valid config
`hmac_length = 0, zero_pad_length = 0`, the well-formed token
`"<name>_" ++ base62(2^72)` drives `decode` into `le_vec_to_num` with a
9-byte decrypted plaintext, and the Rust code then panics on the
out-of-range slice `arr[..9]` of an 8-byte array (modelled by `none`):
the sentinel is found at byte index 9, the 9-byte payload passes the
length and (empty-)MAC checks, and FF1 decryption is length-preserving. -/
theorem c2_decode_panic (c : Codec) (nm : String)
    (hpre : c.pre = nm ++ "_") (hhl : c.hmac_length = 0) (hzp : c.zero_pad_length = 0) :
    decode c (c.pre ++ String.mk (base62Encode (2 ^ 72))) = none := by
  rw [decode_clean c nm _ hpre (base62Encode_no_underscore _)]
  unfold decodeTail
  rw [base62_roundtrip _ (by norm_num)]
  show decodeNum c (2 ^ 72) = none
  unfold decodeNum MAX_BUFFER SENTINEL
  rw [if_pos (by omega)]
  rw [show toLeBytes 16 (2 ^ 72) =
      [0, 0, 0, 0, 0, 0, 0, 0, 0, 1, 0, 0, 0, 0, 0, 0] from by decide]
  rw [show last_nonzero [0, 0, 0, 0, 0, 0, 0, 0, 0, 1, 0, 0, 0, 0, 0, 0] = 9 from by decide]
  rw [if_neg (by decide)]
  rw [show List.take 9 [0, 0, 0, 0, 0, 0, 0, 0, 0, 1, 0, 0, 0, 0, 0, 0] =
      ([0, 0, 0, 0, 0, 0, 0, 0, 0] : List Nat) from by decide]
  exact decrypt_zero9_panics c hhl hzp

/-- C2 witness: the panic theorem applied at a concrete codec; the
failing token is `"test_" ++ base62(2^72) = "test_1SkYaaiXSSTS4"`. -/
theorem c2_witness :
    decode (mkCodec "test_" 0 0) ("test_" ++ String.mk (base62Encode (2 ^ 72))) = none :=
  c2_decode_panic (mkCodec "test_" 0 0) "test" (by decide) rfl rfl

/-! ### Claim C10: the all-zero buffer fails the sentinel check -/

/-- C10: for every codec with `hmac_length + zero_pad_length < 16`, a
token with a valid prefix whose base62 digits decode to 0 makes `decode`
return `SentinelMismatch{received: 0, expected: 1}` without panicking:
`rposition` on the all-zero 16-byte buffer yields `None`, `unwrap_or(0)`
falls back to index 0, and the zero byte there fails the sentinel test. -/
theorem c10_zero_sentinel (c : Codec) (nm : String) (tail : List Char)
    (hpre : c.pre = nm ++ "_") (hcfg : c.hmac_length + c.zero_pad_length < 16)
    (hdec : base62Decode tail = some 0) :
    decode c (c.pre ++ String.mk tail) =
      some (DResult.err (Error.SentinelMismatch 0 1)) := by
  have hclean : ∀ ch ∈ tail, ¬ch = '_' := by
    intro ch hch heq
    have hval := base62Decode_some_valid tail 0 hdec ch hch
    rw [heq] at hval
    exact absurd hval (by decide)
  rw [decode_clean c nm tail hpre hclean]
  unfold decodeTail
  rw [hdec]
  show decodeNum c 0 = some (DResult.err (Error.SentinelMismatch 0 1))
  unfold decodeNum MAX_BUFFER SENTINEL
  rw [if_pos hcfg]
  rw [toLeBytes_zero 16, last_nonzero_replicate_zero]
  rw [show (List.replicate 16 (0 : Nat)).getD 0 0 = 0 from by decide]
  rw [if_pos (by decide)]

/-- C10 witness: the theorem applied at the default config and the token
`"test_0"`. -/
theorem c10_witness :
    decode (mkCodec "test_" 4 4) "test_0" =
      some (DResult.err (Error.SentinelMismatch 0 1)) :=
  c10_zero_sentinel (mkCodec "test_" 4 4) "test" ['0'] (by decide) (by decide) (by decide)

/-! ### Claim C5: the sentinel buffer layout -/

theorem getD_append_cons_gt (xs : List Nat) (y : Nat) (ys : List Nat) :
    ∀ j, xs.length < j → (xs ++ y :: ys).getD j 0 = ys.getD (j - xs.length - 1) 0 := by
  induction xs with
  | nil =>
    intro j hj
    cases j with
    | zero => simp at hj
    | succ j => simp [List.getD_cons_succ]
  | cons x xs ih =>
    intro j hj
    cases j with
    | zero => simp at hj
    | succ j =>
      simp only [List.cons_append, List.getD_cons_succ]
      rw [ih j (by simpa using hj)]
      congr 1
      simp only [List.length_cons]
      omega

/-- C5: on encoding, the payload `P` of length `L` produced by
`encrypt_number` occupies offsets `[0, L)` of the 16-byte little-endian
buffer read by `encode_u128`; when `L < 16` the byte at offset `L` is the
sentinel `1` and all bytes above it are `0`; when `L = 16` the buffer is
exactly `P` with no sentinel. -/
theorem c5_sentinel_packing (c : Codec) (n : Nat) (P : List Nat)
    (hhl : c.hmac_length ≤ 8) (hzp : c.zero_pad_length ≤ 8) (hn : n < 2 ^ 64)
    (hP : encrypt_number c.fpe c.hmac c.hmac_length c.zero_pad_length n = some P) :
    encode_u128 c n = some (leVal (packBuf P)) ∧
    (packBuf P).length = 16 ∧
    (packBuf P).take P.length = P ∧
    (P.length < 16 → (packBuf P).getD P.length 0 = 1 ∧
      ∀ j, P.length < j → j < 16 → (packBuf P).getD j 0 = 0) ∧
    (P.length = 16 → packBuf P = P) := by
  obtain ⟨P', hP', hlen', _⟩ := encrypt_number_some c.fpe c.hmac _ _ n hhl hzp hn
  have hPP : P = P' := by
    rw [hP] at hP'
    exact Option.some.inj hP'
  have hlog := log256_lt_8 n hn
  have h16 : P.length ≤ 16 := by rw [hPP, hlen']; omega
  refine ⟨?_, packBuf_length P h16, ?_, ?_, packBuf_of_not_lt P ∘ (by omega)⟩
  · unfold encode_u128 MAX_BUFFER
    rw [hP]
    show (if P.length ≤ 16 then some (leVal (packBuf P)) else none) =
      some (leVal (packBuf P))
    rw [if_pos h16]
  · by_cases hlt : P.length < 16
    · rw [packBuf_of_lt P hlt, List.take_left]
    · rw [packBuf_of_not_lt P hlt]
      exact List.take_length P
  · intro hlt
    rw [packBuf_of_lt P hlt]
    refine ⟨getD_append_length P 1 _, ?_⟩
    intro j hj1 hj2
    rw [getD_append_cons_gt P 1 _ j hj1]
    exact getD_replicate_zero _ _

/-- C5 witness: the packing theorem applied at a concrete codec with
`n = 0`, whose payload is the 8-byte list `[0,0,0,0,0,0,0,0]`. -/
theorem c5_witness :
    encode_u128 (mkCodec "test_" 4 4) 0 =
      some (leVal (packBuf [0, 0, 0, 0, 0, 0, 0, 0])) ∧
    (packBuf ([0, 0, 0, 0, 0, 0, 0, 0] : List Nat)).length = 16 ∧
    (packBuf ([0, 0, 0, 0, 0, 0, 0, 0] : List Nat)).take
      ([0, 0, 0, 0, 0, 0, 0, 0] : List Nat).length = [0, 0, 0, 0, 0, 0, 0, 0] ∧
    (([0, 0, 0, 0, 0, 0, 0, 0] : List Nat).length < 16 →
      (packBuf ([0, 0, 0, 0, 0, 0, 0, 0] : List Nat)).getD
        ([0, 0, 0, 0, 0, 0, 0, 0] : List Nat).length 0 = 1 ∧
      ∀ j, ([0, 0, 0, 0, 0, 0, 0, 0] : List Nat).length < j → j < 16 →
        (packBuf ([0, 0, 0, 0, 0, 0, 0, 0] : List Nat)).getD j 0 = 0) ∧
    (([0, 0, 0, 0, 0, 0, 0, 0] : List Nat).length = 16 →
      packBuf ([0, 0, 0, 0, 0, 0, 0, 0] : List Nat) = [0, 0, 0, 0, 0, 0, 0, 0]) :=
  c5_sentinel_packing (mkCodec "test_" 4 4) 0 [0, 0, 0, 0, 0, 0, 0, 0]
    (by decide) (by decide) (by decide) (by decide)

/-! ### Claim C6: the trimmed little-endian plaintext -/

/-- C6: the plaintext handed to the cipher is the 8-byte little-endian
serialization of `n` trimmed to exactly
`min(8, max(zero_pad_length, bytes needed))` bytes, where the number of
bytes needed to represent `n` is `Nat.log 256 n + 1` (one byte for
`n = 0`); in particular the length is at least `zero_pad_length` and at
most 8, including the edge case `n = 0, zero_pad_length = 0`. -/
theorem c6_plaintext_trim (n zp : Nat) (hn : n < 2 ^ 64) (hzp : zp ≤ 8) :
    num_to_le_vec n zp = (toLeBytes 8 n).take (min 8 (max zp (Nat.log 256 n + 1))) ∧
    (num_to_le_vec n zp).length = min 8 (max zp (Nat.log 256 n + 1)) ∧
    zp ≤ (num_to_le_vec n zp).length ∧ (num_to_le_vec n zp).length ≤ 8 := by
  have hlog := log256_lt_8 n hn
  have hlen := num_to_le_vec_length n zp hzp hn
  have hmm : min 8 (max zp (Nat.log 256 n + 1)) = max (Nat.log 256 n + 1) zp := by omega
  refine ⟨?_, ?_, ?_, ?_⟩
  · unfold num_to_le_vec
    rw [last_nonzero_toLeBytes 8 n (by rw [pow_256_8]; exact hn), hmm]
  · rw [hlen, hmm]
  · rw [hlen]; omega
  · rw [hlen]; omega

/-- C6 witness: the trimming theorem applied at `n = 0, zp = 0`: the
plaintext is the single byte `[0]`. -/
theorem c6_witness :
    num_to_le_vec 0 0 = (toLeBytes 8 0).take (min 8 (max 0 (Nat.log 256 0 + 1))) ∧
    (num_to_le_vec 0 0).length = min 8 (max 0 (Nat.log 256 0 + 1)) ∧
    0 ≤ (num_to_le_vec 0 0).length ∧ (num_to_le_vec 0 0).length ≤ 8 :=
  c6_plaintext_trim 0 0 (by decide) (by decide)

/-! ### Claim C8: `encode_uuid` ignores the configured lengths -/

/-- C8: `encode_uuid` runs `encrypt_number` with the fixed arguments
`hmac_length = 8, zero_pad_length = 8` regardless of the codec's
configured values; the payload always has exactly 16 bytes (no sentinel),
and two codecs with the same derived primitives (same name and key) but
different configured lengths produce the same 128-bit UUID value for
every `n`. -/
theorem c8_encode_uuid (c1 c2 : Codec) (n : Nat)
    (hf : c1.fpe = c2.fpe) (hm : c1.hmac = c2.hmac) (hn : n < 2 ^ 64) :
    encode_uuid c1 n = encode_uuid c2 n ∧
    ∃ P, encrypt_number c1.fpe c1.hmac 8 8 n = some P ∧ P.length = 16 ∧
      encode_uuid c1 n = some (leVal P) := by
  constructor
  · unfold encode_uuid
    rw [hf, hm]
  · obtain ⟨P, hP, hPlen, _⟩ :=
      encrypt_number_some c1.fpe c1.hmac 8 8 n (by omega) (by omega) hn
    have hlog := log256_lt_8 n hn
    have h16 : P.length = 16 := by rw [hPlen]; omega
    refine ⟨P, hP, h16, ?_⟩
    unfold encode_uuid
    rw [hP]
    show (if P.length = 16 then some (leVal P) else none) = some (leVal P)
    rw [if_pos h16]

/-- C8 witness: the theorem applied at two codecs sharing primitives but
with different configured `hmac_length`/`zero_pad_length`, at `n = 9`. -/
theorem c8_witness :
    encode_uuid (mkCodec "test_" 2 3) 9 = encode_uuid (mkCodec "test_" 4 4) 9 ∧
    ∃ P, encrypt_number (mkCodec "test_" 2 3).fpe (mkCodec "test_" 2 3).hmac 8 8 9 =
        some P ∧ P.length = 16 ∧
      encode_uuid (mkCodec "test_" 2 3) 9 = some (leVal P) :=
  c8_encode_uuid (mkCodec "test_" 2 3) (mkCodec "test_" 4 4) 9 rfl rfl (by decide)

/-! ### Claim C4: when `decode` returns `DecodingFailed` -/

theorem decrypt_number_ne_decoding (c : Codec) (data : List Nat) :
    decrypt_number c data ≠ some (DResult.err Error.DecodingFailed) := by
  unfold decrypt_number
  by_cases h1 : data.length < c.hmac_length + c.zero_pad_length
  · rw [if_pos h1]; simp
  · rw [if_neg h1]
    by_cases h2 : (c.hmac.mac (data.take (data.length - c.hmac_length))).take
        c.hmac_length ≠ data.drop (data.length - c.hmac_length)
    · rw [if_pos h2]; simp
    · rw [if_neg h2]
      cases c.fpe.dec (data.take (data.length - c.hmac_length)) with
      | none => simp
      | some dn =>
        cases hv : le_vec_to_num dn with
        | none => simp [hv]
        | some m => simp [hv]

theorem decodeNum_ne_decoding (c : Codec) (num : Nat) :
    decodeNum c num ≠ some (DResult.err Error.DecodingFailed) := by
  unfold decodeNum
  by_cases h1 : c.hmac_length + c.zero_pad_length < MAX_BUFFER
  · rw [if_pos h1]
    by_cases h2 : (toLeBytes 16 num).getD (last_nonzero (toLeBytes 16 num)) 0 ≠ SENTINEL
    · rw [if_pos h2]; simp
    · rw [if_neg h2]
      exact decrypt_number_ne_decoding c _
  · rw [if_neg h1]
    exact decrypt_number_ne_decoding c _

/-- C4 (amended): for a token `"<name>_" ++ tail` whose tail contains no
underscore, `decode` returns `DecodingFailed` exactly when the base62
parse fails, which happens when the tail is empty, contains a character
outside the base62 alphabet, or denotes a value `≥ 2^128` (the `base62`
crate's `u128` overflow); an in-alphabet tail denoting a value `< 2^128`
always proceeds past the base62 stage.  (A tail containing an underscore
instead shifts the prefix split and fails with `InvalidPrefix`, not
`DecodingFailed`, which is the other correction to the claim.) -/
theorem c4_decoding_failed_iff (c : Codec) (nm : String) (tail : List Char)
    (hpre : c.pre = nm ++ "_") (ht : ∀ ch ∈ tail, ¬ch = '_') :
    (decode c (c.pre ++ String.mk tail) = some (DResult.err Error.DecodingFailed) ↔
      tail = [] ∨ (∃ ch ∈ tail, b62Digit ch = none) ∨ 2 ^ 128 ≤ b62ValFrom 0 tail) := by
  rw [decode_clean c nm tail hpre ht]
  unfold decodeTail
  rw [← base62Decode_eq_none_iff]
  cases hb : base62Decode tail with
  | none => simp
  | some v =>
    constructor
    · intro h
      exact absurd h (decodeNum_ne_decoding c v)
    · intro h
      exact Option.noConfusion h

/-- C4 counterexample: a string of 22 `'z'` characters is entirely inside
the base62 alphabet, yet decoding `"test_zzzzzzzzzzzzzzzzzzzzzz"` returns
`DecodingFailed` (the value exceeds `u128::MAX`), so `DecodingFailed`
does not occur exactly on out-of-alphabet characters. -/
theorem c4_counterexample :
    (∀ ch ∈ List.replicate 22 'z', (b62Digit ch).isSome = true) ∧
    decode (mkCodec "test_" 4 4) ("test_" ++ String.mk (List.replicate 22 'z')) =
      some (DResult.err Error.DecodingFailed) := by
  constructor
  · decide
  · decide

/-- C4 witness: the amended characterization applied at the tail `"+"`,
whose single character is outside the alphabet. -/
theorem c4_witness :
    decode (mkCodec "test_" 4 4) ("test_" ++ String.mk ['+']) =
      some (DResult.err Error.DecodingFailed) :=
  (c4_decoding_failed_iff (mkCodec "test_" 4 4) "test" ['+'] (by decide) (by decide)).mpr
    (Or.inr (Or.inl ⟨'+', by decide, by decide⟩))

/-! ### Bits and bytes: `BinaryNumeralString` round-trips -/

theorem byteBits_lt (b : Nat) : ∀ x ∈ byteBits b, x < 2 := by
  intro x hx
  simp only [byteBits, List.mem_cons, List.not_mem_nil, or_false] at hx
  rcases hx with rfl | rfl | rfl | rfl | rfl | rfl | rfl | rfl <;> omega

theorem byteOfBits_byteBits (b : Nat) (hb : b < 256) : byteOfBits (byteBits b) = b := by
  simp only [byteBits, byteOfBits, List.foldr_cons, List.foldr_nil]
  omega

theorem byteBits_byteOfBits8 (b0 b1 b2 b3 b4 b5 b6 b7 : Nat) (g0 : b0 < 2) (g1 : b1 < 2)
    (g2 : b2 < 2) (g3 : b3 < 2) (g4 : b4 < 2) (g5 : b5 < 2) (g6 : b6 < 2) (g7 : b7 < 2) :
    byteBits (byteOfBits [b0, b1, b2, b3, b4, b5, b6, b7]) = [b0, b1, b2, b3, b4, b5, b6, b7] := by
  simp only [byteBits, byteOfBits, List.foldr_cons, List.foldr_nil, List.cons.injEq, and_true]
  refine ⟨?_, ?_, ?_, ?_, ?_, ?_, ?_, ?_⟩ <;> omega

theorem bytesToBits_length (bs : List Nat) : (bytesToBits bs).length = 8 * bs.length := by
  induction bs with
  | nil => rfl
  | cons b bs ih =>
    rw [show bytesToBits (b :: bs) = byteBits b ++ bytesToBits bs from rfl,
      List.length_append, ih, List.length_cons]
    show 8 + 8 * bs.length = 8 * (bs.length + 1)
    omega

theorem bytesToBits_lt (bs : List Nat) : ∀ x ∈ bytesToBits bs, x < 2 := by
  induction bs with
  | nil => intro x hx; simp [bytesToBits] at hx
  | cons b bs ih =>
    intro x hx
    rw [show bytesToBits (b :: bs) = byteBits b ++ bytesToBits bs from rfl] at hx
    rcases List.mem_append.mp hx with h | h
    · exact byteBits_lt b x h
    · exact ih x h

theorem bitsToBytes_bytesToBits (bs : List Nat) (hb : ∀ b ∈ bs, b < 256) :
    bitsToBytes (bytesToBits bs) = bs := by
  induction bs with
  | nil => rfl
  | cons b bs ih =>
    rw [show bitsToBytes (bytesToBits (b :: bs)) =
      byteOfBits (byteBits b) :: bitsToBytes (bytesToBits bs) from rfl]
    rw [ih (fun x hx => hb x (List.mem_cons_of_mem b hx)),
      byteOfBits_byteBits b (hb b (List.mem_cons_self b bs))]

theorem bitsToBytes_spec : ∀ (k : Nat) (bits : List Nat), bits.length = 8 * k →
    (∀ x ∈ bits, x < 2) →
    (bitsToBytes bits).length = k ∧ (∀ b ∈ bitsToBytes bits, b < 256) ∧
      bytesToBits (bitsToBytes bits) = bits := by
  intro k
  induction k with
  | zero =>
    intro bits hlen _
    have hnil : bits = [] := List.length_eq_zero.mp (by omega)
    subst hnil
    exact ⟨rfl, fun b hb => absurd hb (by simp [bitsToBytes, chunks8]), rfl⟩
  | succ k ih =>
    intro bits hlen hb
    rcases bits with _ | ⟨b0, _ | ⟨b1, _ | ⟨b2, _ | ⟨b3, _ | ⟨b4, _ | ⟨b5, _ | ⟨b6, _ | ⟨b7, rest⟩⟩⟩⟩⟩⟩⟩⟩ <;>
      simp only [List.length_cons, List.length_nil] at hlen
    any_goals (exfalso; omega)
    have g0 := hb b0 (by simp)
    have g1 := hb b1 (by simp)
    have g2 := hb b2 (by simp)
    have g3 := hb b3 (by simp)
    have g4 := hb b4 (by simp)
    have g5 := hb b5 (by simp)
    have g6 := hb b6 (by simp)
    have g7 := hb b7 (by simp)
    have hrb : ∀ x ∈ rest, x < 2 := fun x hx => hb x (by simp [hx])
    obtain ⟨ih1, ih2, ih3⟩ := ih rest (by omega) hrb
    have hbb : bitsToBytes (b0 :: b1 :: b2 :: b3 :: b4 :: b5 :: b6 :: b7 :: rest) =
        byteOfBits [b0, b1, b2, b3, b4, b5, b6, b7] :: bitsToBytes rest := rfl
    refine ⟨?_, ?_, ?_⟩
    · rw [hbb, List.length_cons, ih1]
    · rw [hbb]
      intro x hx
      rcases List.mem_cons.mp hx with rfl | h
      · simp only [byteOfBits, List.foldr_cons, List.foldr_nil]
        omega
      · exact ih2 x h
    · rw [hbb]
      rw [show bytesToBits (byteOfBits [b0, b1, b2, b3, b4, b5, b6, b7] :: bitsToBytes rest) =
        byteBits (byteOfBits [b0, b1, b2, b3, b4, b5, b6, b7]) ++ bytesToBits (bitsToBytes rest)
        from rfl]
      rw [ih3, byteBits_byteOfBits8 b0 b1 b2 b3 b4 b5 b6 b7 g0 g1 g2 g3 g4 g5 g6 g7]
      rfl

/-! ### NUM and STR of SP 800-38G -/

theorem numBE_foldl_acc (r : Nat) (xs : List Nat) : ∀ acc : Nat,
    xs.foldl (fun a x => a * r + x) acc =
      acc * r ^ xs.length + xs.foldl (fun a x => a * r + x) 0 := by
  induction xs with
  | nil => intro acc; simp
  | cons x xs ih =>
    intro acc
    rw [List.foldl_cons, List.foldl_cons, ih (acc * r + x), ih (0 * r + x), List.length_cons]
    ring

theorem numBE_cons (r x : Nat) (xs : List Nat) :
    numBE r (x :: xs) = x * r ^ xs.length + numBE r xs := by
  unfold numBE
  rw [List.foldl_cons, numBE_foldl_acc r xs (0 * r + x)]
  ring

theorem numBE_lt (r : Nat) (xs : List Nat) (hx : ∀ x ∈ xs, x < r) :
    numBE r xs < r ^ xs.length := by
  induction xs with
  | nil =>
    rw [show numBE r [] = 0 from rfl, List.length_nil, pow_zero]
    omega
  | cons x xs ih =>
    rw [numBE_cons, List.length_cons]
    have hxr := hx x (List.mem_cons_self x xs)
    have hN := ih (fun y hy => hx y (List.mem_cons_of_mem x hy))
    calc x * r ^ xs.length + numBE r xs < x * r ^ xs.length + r ^ xs.length := by omega
    _ = (x + 1) * r ^ xs.length := by ring
    _ ≤ r * r ^ xs.length := Nat.mul_le_mul_right _ hxr
    _ = r ^ (xs.length + 1) := by ring

theorem strBE_length (r m x : Nat) : (strBE r m x).length = m := by
  induction m with
  | zero => rfl
  | succ m ih =>
    rw [show strBE r (m + 1) x = x / r ^ m % r :: strBE r m x from rfl, List.length_cons, ih]

theorem strBE_lt (r m x : Nat) (hr : 0 < r) : ∀ y ∈ strBE r m x, y < r := by
  induction m with
  | zero => intro y hy; simp [strBE] at hy
  | succ m ih =>
    intro y hy
    rw [show strBE r (m + 1) x = x / r ^ m % r :: strBE r m x from rfl] at hy
    rcases List.mem_cons.mp hy with rfl | h
    · exact Nat.mod_lt _ hr
    · exact ih y h

theorem numBE_strBE (r m c : Nat) : numBE r (strBE r m c) = c % r ^ m := by
  induction m with
  | zero =>
    rw [show strBE r 0 c = [] from rfl, show numBE r [] = 0 from rfl, pow_zero, Nat.mod_one]
  | succ m ih =>
    rw [show strBE r (m + 1) c = c / r ^ m % r :: strBE r m c from rfl, numBE_cons,
      strBE_length, ih, pow_succ, Nat.mod_mul]
    ring

theorem strBE_shift (r m : Nat) (hr : 0 < r) : ∀ a w : Nat,
    strBE r m (a * r ^ m + w) = strBE r m w := by
  induction m with
  | zero => intro a w; rfl
  | succ m ih =>
    intro a w
    rw [show strBE r (m + 1) (a * r ^ (m + 1) + w) =
      (a * r ^ (m + 1) + w) / r ^ m % r :: strBE r m (a * r ^ (m + 1) + w) from rfl]
    rw [show strBE r (m + 1) w = w / r ^ m % r :: strBE r m w from rfl]
    have hrw : a * r ^ (m + 1) + w = w + a * r * r ^ m := by ring
    congr 1
    · rw [hrw, Nat.add_mul_div_right w (a * r) (pow_pos hr m), Nat.add_mul_mod_self_right]
    · rw [hrw, show w + a * r * r ^ m = a * r * r ^ m + w from by ring, ih (a * r) w]

theorem strBE_numBE (r : Nat) (xs : List Nat) (hr : 0 < r) (hx : ∀ x ∈ xs, x < r) :
    strBE r xs.length (numBE r xs) = xs := by
  induction xs with
  | nil => rfl
  | cons x xs ih =>
    rw [List.length_cons]
    rw [show strBE r (xs.length + 1) (numBE r (x :: xs)) =
      numBE r (x :: xs) / r ^ xs.length % r :: strBE r xs.length (numBE r (x :: xs)) from rfl]
    have hN : numBE r xs < r ^ xs.length :=
      numBE_lt r xs (fun y hy => hx y (List.mem_cons_of_mem x hy))
    have hxr : x < r := hx x (List.mem_cons_self x xs)
    congr 1
    · rw [numBE_cons,
        show x * r ^ xs.length + numBE r xs = numBE r xs + x * r ^ xs.length from by ring,
        Nat.add_mul_div_right _ _ (pow_pos hr xs.length), Nat.div_eq_of_lt hN, Nat.zero_add,
        Nat.mod_eq_of_lt hxr]
    · rw [numBE_cons, strBE_shift r xs.length hr x (numBE r xs)]
      exact ih (fun y hy => hx y (List.mem_cons_of_mem x hy))

theorem mod_inv_round (a y M : Nat) (hM : 0 < M) (ha : a < M) :
    ((a + y) % M + (M - y % M)) % M = a := by
  have h1 : (a + y) % M = (a + y % M) % M := by
    rw [Nat.add_mod, Nat.mod_eq_of_lt ha]
  rw [h1]
  have hz : y % M < M := Nat.mod_lt y hM
  rcases Nat.lt_or_ge (a + y % M) M with h | h
  · rw [Nat.mod_eq_of_lt h, show a + y % M + (M - y % M) = a + M from by omega,
      Nat.add_mod_right, Nat.mod_eq_of_lt ha]
  · have hmod : (a + y % M) % M = a + y % M - M := by
      rw [Nat.mod_eq_sub_mod h, Nat.mod_eq_of_lt (by omega)]
    rw [hmod, show a + y % M - M + (M - y % M) = a from by omega, Nat.mod_eq_of_lt ha]

/-! ### The FF1 round invariant and round inverse -/

/-- The invariant carried across FF1 rounds: before round `i` the
half-strings have lengths `u, v` (swapped on odd rounds) and hold bits. -/
def ff1Inv (u v i : Nat) (st : List Nat × List Nat) : Prop :=
  st.1.length = (if i % 2 = 0 then u else v) ∧
  st.2.length = (if i % 2 = 0 then v else u) ∧
  (∀ x ∈ st.1, x < 2) ∧ (∀ x ∈ st.2, x < 2)

theorem ifFlip (i u v : Nat) : (if (i + 1) % 2 = 0 then u else v) = if i % 2 = 0 then v else u := by
  rcases Nat.mod_two_eq_zero_or_one i with hp | hp
  · rw [show (i + 1) % 2 = 1 from by omega, hp, if_neg (by omega), if_pos rfl]
  · rw [show (i + 1) % 2 = 0 from by omega, hp, if_pos rfl, if_neg (by omega)]

theorem ff1EncRound_inv (ws : List Nat) (u v b d : Nat) (P : List Nat)
    (st : List Nat × List Nat) (i : Nat) (h : ff1Inv u v i st) :
    ff1Inv u v (i + 1) (ff1EncRound ws u v b d P st i) := by
  obtain ⟨h1, h2, h3, h4⟩ := h
  refine ⟨?_, ?_, ?_, ?_⟩
  · show st.2.length = if (i + 1) % 2 = 0 then u else v
    rw [ifFlip]
    exact h2
  · show (strBE 2 (if i % 2 = 0 then u else v) _).length = if (i + 1) % 2 = 0 then v else u
    rw [ifFlip i v u, strBE_length]
  · exact h4
  · show ∀ x ∈ strBE 2 (if i % 2 = 0 then u else v) _, x < 2
    exact strBE_lt _ _ _ (by omega)

theorem ff1DecRound_encRound (ws : List Nat) (u v b d : Nat) (P : List Nat)
    (st : List Nat × List Nat) (i : Nat) (h : ff1Inv u v i st) :
    ff1DecRound ws u v b d P (ff1EncRound ws u v b d P st i) i = st := by
  obtain ⟨h1, h2, h3, h4⟩ := h
  show (strBE 2 (if i % 2 = 0 then u else v)
    ((numBE 2 (strBE 2 (if i % 2 = 0 then u else v)
        ((numBE 2 st.1 + ff1Y ws b d P i st.2) % 2 ^ (if i % 2 = 0 then u else v))) +
      (2 ^ (if i % 2 = 0 then u else v) -
        ff1Y ws b d P i st.2 % 2 ^ (if i % 2 = 0 then u else v))) %
      2 ^ (if i % 2 = 0 then u else v)), st.2) = st
  set m := if i % 2 = 0 then u else v with hm
  have hpos : 0 < 2 ^ m := pow_pos (by omega) m
  have ha : numBE 2 st.1 < 2 ^ m := by
    have hlt := numBE_lt 2 st.1 h3
    rwa [h1] at hlt
  rw [numBE_strBE, Nat.mod_mod_of_dvd _ dvd_rfl, mod_inv_round _ _ _ hpos ha]
  have hs : strBE 2 m (numBE 2 st.1) = st.1 := by
    rw [← h1]
    exact strBE_numBE 2 st.1 (by omega) h3
  rw [hs]

theorem ff1_fold_inv (ws : List Nat) (u v b d : Nat) (P : List Nat) :
    ∀ (k i : Nat) (st : List Nat × List Nat), ff1Inv u v i st →
      ff1Inv u v (i + k) ((List.range' i k).foldl (ff1EncRound ws u v b d P) st) ∧
      (List.range' i k).reverse.foldl (ff1DecRound ws u v b d P)
        ((List.range' i k).foldl (ff1EncRound ws u v b d P) st) = st := by
  intro k
  induction k with
  | zero => intro i st h; exact ⟨h, rfl⟩
  | succ k ih =>
    intro i st h
    rw [show List.range' i (k + 1) = i :: List.range' (i + 1) k from rfl]
    rw [List.reverse_cons, List.foldl_cons, List.foldl_append, List.foldl_cons, List.foldl_nil]
    obtain ⟨hinv, hdec⟩ := ih (i + 1) (ff1EncRound ws u v b d P st i)
      (ff1EncRound_inv ws u v b d P st i h)
    constructor
    · rw [show i + (k + 1) = i + 1 + k from by omega]
      exact hinv
    · rw [hdec]
      exact ff1DecRound_encRound ws u v b d P st i h

/-! ### The FF1 bit- and byte-string specifications -/

theorem pairCat_eq (p : List Nat × List Nat) : pairCat p = p.1 ++ p.2 := by
  cases p
  rfl

theorem pairCat_length (p : List Nat × List Nat) :
    (pairCat p).length = p.1.length + p.2.length := by
  rw [pairCat_eq, List.length_append]

theorem pairCat_mem (p : List Nat × List Nat) (x : Nat) :
    x ∈ pairCat p ↔ x ∈ p.1 ∨ x ∈ p.2 := by
  rw [pairCat_eq]
  exact List.mem_append

theorem ff1DecRound_fst_length (ws : List Nat) (u v b d : Nat) (P : List Nat)
    (st : List Nat × List Nat) (i : Nat) :
    (ff1DecRound ws u v b d P st i).1.length = if i % 2 = 0 then u else v :=
  strBE_length 2 _ _

theorem ff1DecRound_fst_lt (ws : List Nat) (u v b d : Nat) (P : List Nat)
    (st : List Nat × List Nat) (i : Nat) : ∀ x ∈ (ff1DecRound ws u v b d P st i).1, x < 2 :=
  strBE_lt 2 _ _ (by omega)

theorem ff1DecRound_snd (ws : List Nat) (u v b d : Nat) (P : List Nat)
    (st : List Nat × List Nat) (i : Nat) : (ff1DecRound ws u v b d P st i).2 = st.1 := rfl

theorem ff1DecryptBits_spec (ws y : List Nat) :
    (ff1DecryptBits ws y).length = y.length ∧ ∀ x ∈ ff1DecryptBits ws y, x < 2 := by
  unfold ff1DecryptBits
  rw [show (List.range 10).reverse = [9, 8, 7, 6, 5, 4, 3, 2, 1, 0] from rfl]
  simp only [List.foldl_cons, List.foldl_nil]
  constructor
  · rw [pairCat_length, ff1DecRound_fst_length, ff1DecRound_snd, ff1DecRound_fst_length,
      if_pos (show (0 : Nat) % 2 = 0 from rfl), if_neg (show ¬(1 : Nat) % 2 = 0 from by omega)]
    unfold ff1U ff1V
    omega
  · intro x hx
    rcases (pairCat_mem _ _).mp hx with h | h
    · exact ff1DecRound_fst_lt _ _ _ _ _ _ _ _ x h
    · rw [ff1DecRound_snd] at h
      exact ff1DecRound_fst_lt _ _ _ _ _ _ _ _ x h

theorem ff1EncBits_spec (ws x : List Nat) (hx : ∀ b ∈ x, b < 2) :
    (ff1EncryptBits ws x).length = x.length ∧ (∀ b ∈ ff1EncryptBits ws x, b < 2) ∧
      ff1DecryptBits ws (ff1EncryptBits ws x) = x := by
  have h0 : ff1Inv (ff1U x.length) (ff1V x.length) 0
      (x.take (ff1U x.length), x.drop (ff1U x.length)) := by
    refine ⟨?_, ?_, ?_, ?_⟩
    · show (x.take (ff1U x.length)).length = if 0 % 2 = 0 then ff1U x.length else ff1V x.length
      rw [if_pos rfl, List.length_take]
      unfold ff1U
      omega
    · show (x.drop (ff1U x.length)).length = if 0 % 2 = 0 then ff1V x.length else ff1U x.length
      rw [if_pos rfl, List.length_drop]
      unfold ff1U ff1V
      rfl
    · intro b hb
      exact hx b (List.take_subset _ _ hb)
    · intro b hb
      exact hx b (List.drop_subset _ _ hb)
  obtain ⟨hinv, hdec⟩ := ff1_fold_inv ws (ff1U x.length) (ff1V x.length) (ff1B x.length)
    (ff1D x.length) (ff1P (ff1U x.length) x.length) 10 0
    (x.take (ff1U x.length), x.drop (ff1U x.length)) h0
  rw [← List.range_eq_range'] at hinv hdec
  have hf1 := hinv.1
  rw [if_pos (show (0 + 10) % 2 = 0 from rfl)] at hf1
  have hf2 := hinv.2.1
  rw [if_pos (show (0 + 10) % 2 = 0 from rfl)] at hf2
  have hlen : (ff1EncryptBits ws x).length = x.length := by
    unfold ff1EncryptBits
    rw [pairCat_length, hf1, hf2]
    unfold ff1U ff1V
    omega
  have hbits : ∀ b ∈ ff1EncryptBits ws x, b < 2 := by
    unfold ff1EncryptBits
    intro b hb
    rcases (pairCat_mem _ _).mp hb with h | h
    · exact hinv.2.2.1 b h
    · exact hinv.2.2.2 b h
  refine ⟨hlen, hbits, ?_⟩
  unfold ff1DecryptBits
  rw [hlen]
  rw [show ff1EncryptBits ws x = pairCat ((List.range 10).foldl
    (ff1EncRound ws (ff1U x.length) (ff1V x.length) (ff1B x.length) (ff1D x.length)
      (ff1P (ff1U x.length) x.length))
    (x.take (ff1U x.length), x.drop (ff1U x.length))) from rfl]
  rw [pairCat_eq ((List.range 10).foldl
    (ff1EncRound ws (ff1U x.length) (ff1V x.length) (ff1B x.length) (ff1D x.length)
      (ff1P (ff1U x.length) x.length))
    (x.take (ff1U x.length), x.drop (ff1U x.length)))]
  rw [List.take_left' hf1, List.drop_left' hf1, Prod.mk.eta, hdec]
  show x.take (ff1U x.length) ++ x.drop (ff1U x.length) = x
  exact List.take_append_drop _ x

theorem ff1EncryptBytes_spec (ws bs : List Nat) (hb : ∀ b ∈ bs, b < 256) :
    (ff1EncryptBytes ws bs).length = bs.length ∧ (∀ b ∈ ff1EncryptBytes ws bs, b < 256) ∧
      ff1DecryptBytes ws (ff1EncryptBytes ws bs) = bs := by
  obtain ⟨e1, e2, e3⟩ := ff1EncBits_spec ws (bytesToBits bs) (bytesToBits_lt bs)
  obtain ⟨s1, s2, s3⟩ := bitsToBytes_spec bs.length (ff1EncryptBits ws (bytesToBits bs))
    (by rw [e1, bytesToBits_length]) e2
  refine ⟨?_, ?_, ?_⟩
  · unfold ff1EncryptBytes
    exact s1
  · unfold ff1EncryptBytes
    exact s2
  · unfold ff1DecryptBytes ff1EncryptBytes
    rw [s3, e3]
    exact bitsToBytes_bytesToBits bs hb

theorem ff1EncryptBytes_length (ws bs : List Nat) :
    (ff1EncryptBytes ws bs).length = bs.length := by
  obtain ⟨e1, e2, _⟩ := ff1EncBits_spec ws (bytesToBits bs) (bytesToBits_lt bs)
  obtain ⟨s1, _, _⟩ := bitsToBytes_spec bs.length (ff1EncryptBits ws (bytesToBits bs))
    (by rw [e1, bytesToBits_length]) e2
  unfold ff1EncryptBytes
  exact s1

theorem ff1DecryptBytes_length (ws bs : List Nat) :
    (ff1DecryptBytes ws bs).length = bs.length := by
  obtain ⟨d1, d2⟩ := ff1DecryptBits_spec ws (bytesToBits bs)
  obtain ⟨s1, _, _⟩ := bitsToBytes_spec bs.length (ff1DecryptBits ws (bytesToBits bs))
    (by rw [d1, bytesToBits_length]) d2
  unfold ff1DecryptBytes
  exact s1

/-! ### SHA-256 output shape, and the concrete primitive instances -/

theorem wordToBytesBE_lt (w : Nat) : ∀ b ∈ wordToBytesBE w, b < 256 := by
  intro b hb
  simp only [wordToBytesBE, List.mem_cons, List.not_mem_nil, or_false] at hb
  rcases hb with rfl | rfl | rfl | rfl <;> omega

theorem sha256_length (msg : List Nat) : (sha256 msg).length = 32 := by
  unfold sha256
  generalize (chunks 64 (shaPad msg)).foldl shaBlock shaH0 = t
  obtain ⟨w1, w2, w3, w4, w5, w6, w7, w8⟩ := t
  show (wordToBytesBE w1 ++ wordToBytesBE w2 ++ wordToBytesBE w3 ++ wordToBytesBE w4 ++
    wordToBytesBE w5 ++ wordToBytesBE w6 ++ wordToBytesBE w7 ++ wordToBytesBE w8).length = 32
  simp [wordToBytesBE]

theorem sha256_lt (msg : List Nat) : ∀ b ∈ sha256 msg, b < 256 := by
  intro b hb
  unfold sha256 at hb
  generalize hfold : (chunks 64 (shaPad msg)).foldl shaBlock shaH0 = t
  rw [hfold] at hb
  obtain ⟨w1, w2, w3, w4, w5, w6, w7, w8⟩ := t
  have hb2 : b ∈ wordToBytesBE w1 ++ wordToBytesBE w2 ++ wordToBytesBE w3 ++ wordToBytesBE w4 ++
      wordToBytesBE w5 ++ wordToBytesBE w6 ++ wordToBytesBE w7 ++ wordToBytesBE w8 := hb
  simp only [List.mem_append] at hb2
  rcases hb2 with ((((((h | h) | h) | h) | h) | h) | h) | h <;> exact wordToBytesBE_lt _ b h

set_option maxRecDepth 8000 in
/-- The packed S-box agrees with the FIPS 197 table. -/
theorem sboxN_eq_sbox : sboxN = sbox.foldr (fun b acc => b + 256 * acc) 0 := by decide

/-- The FF1/AES-256 primitive over round-key words `ws`, packaged as the
abstract `Fpe` interface with its laws proved. -/
def ff1Fpe (ws : List Nat) : Fpe where
  enc := fun bs => some (ff1EncryptBytes ws bs)
  dec := fun bs => some (ff1DecryptBytes ws bs)
  encTotal := fun _ _ => rfl
  decTotal := fun _ _ => rfl
  encLen := fun bs cs h => by
    obtain rfl := Option.some.inj h
    exact ff1EncryptBytes_length ws bs
  decLen := fun bs cs h => by
    obtain rfl := Option.some.inj h
    exact ff1DecryptBytes_length ws bs
  decEnc := fun bs cs hb h => by
    obtain rfl := Option.some.inj h
    exact congrArg some (ff1EncryptBytes_spec ws bs hb).2.2
  encBytes := fun bs cs h hb => by
    obtain rfl := Option.some.inj h
    exact (ff1EncryptBytes_spec ws bs hb).2.1

/-- HMAC-SHA256 under `key`, packaged as the abstract `MacF` interface. -/
def hmacMac (key : List Nat) : MacF where
  mac := fun msg => hmacSha256 key msg
  macLen := fun _ => sha256_length _
  macBytes := fun _ => sha256_lt _

/-- The codec of the repo's test vectors: name `"test"` (prefix
`"test_"`), `hmac_length = 4`, `zero_pad_length = 4`, primitives keyed by
the subkeys derived from master key `"Test key here"`. -/
def testCodec9 : Codec :=
  { fpe := ff1Fpe testFf1Words, hmac := hmacMac testMacKey, hmac_length := 4,
    pre := "test_", zero_pad_length := 4 }

/-! ### Claim C7: prefix isolation across codec names -/

/-- C7: a token encoded by a codec whose prefix is `"a_"` and decoded by
a codec whose prefix is `"b_"` fails with
`InvalidPrefix{received: "a_", expected: "b_"}` whenever `a ≠ b`, for
every pair of codecs — regardless of their primitives or configs.  In
particular it holds for two codecs built from the same master key under
distinct names `a` and `b`, whose HKDF labels `"<name>/ff1"` and
`"<name>/hmac"` then derive distinct subkeys: `decode` compares the
leading substring up to the token's last underscore against the stored
prefix before any primitive is consulted, and the base62 digits contain
no underscore, so that substring is exactly `"a_"`. -/
theorem c7_wrong_codec (ca cb : Codec) (a b : String) (n : Nat) (t : String)
    (hpa : ca.pre = a ++ "_") (hpb : cb.pre = b ++ "_") (hab : a ≠ b)
    (ht : encode ca n = some t) :
    decode cb t = some (DResult.err (Error.InvalidPre (a ++ "_") (b ++ "_"))) := by
  obtain ⟨v, hv, rfl⟩ : ∃ v, encode_u128 ca n = some v ∧
      t = ca.pre ++ String.mk (base62Encode v) := by
    unfold encode at ht
    cases hu : encode_u128 ca n with
    | none => rw [hu] at ht; exact Option.noConfusion ht
    | some v => rw [hu] at ht; exact ⟨v, rfl, (Option.some.inj ht).symm⟩
  have hdata : (ca.pre ++ String.mk (base62Encode v)).data =
      (a ++ "_").data ++ base62Encode v := by
    rw [String.data_append, hpa]
  unfold decode
  rw [decodeReceived_clean _ a _ hdata (base62Encode_no_underscore v)]
  rw [if_neg ?hne]
  · rw [hpb]
  case hne =>
    rw [hpb]
    intro h
    apply hab
    have hd : (a ++ "_").data = (b ++ "_").data := congrArg String.data h
    rw [String.data_append, String.data_append] at hd
    exact String.ext (List.append_cancel_right hd)

/-! ### Claim C9: the literal test vectors -/

set_option maxRecDepth 400000 in
set_option maxHeartbeats 16000000 in
theorem testFf1Words_derived :
    testFf1Words = aes256KeyWords (hkdfExpand32 (strBytes "Test key here") (strBytes "test/ff1")) := by
  decide

set_option maxRecDepth 400000 in
set_option maxHeartbeats 16000000 in
theorem testMacKey_derived :
    testMacKey = hkdfExpand32 (strBytes "Test key here") (strBytes "test/hmac") := by
  decide

set_option maxRecDepth 400000 in
set_option maxHeartbeats 16000000 in
theorem encode_testCodec9_zero : encode testCodec9 0 = some "test_g1HdsEGpXp5" := by
  decide

set_option maxRecDepth 400000 in
set_option maxHeartbeats 16000000 in
theorem encode_testCodec9_one : encode testCodec9 1 = some "test_bTPc8uxHEwv" := by
  decide

set_option maxRecDepth 400000 in
set_option maxHeartbeats 16000000 in
theorem encode_testCodec9_123 : encode testCodec9 123 = some "test_hHLBCl4rZ3u" := by
  decide

set_option maxRecDepth 400000 in
set_option maxHeartbeats 16000000 in
theorem encode_testCodec9_max : encode testCodec9 (2 ^ 64 - 1) = some "test_20cMzlnhTkILdJzWt" := by
  decide

/-- C9: for a codec built with name `"test"` and key `"Test key here"`
(so prefix `"test_"`, FF1 and HMAC subkeys HKDF-derived under the labels
`"test/ff1"` and `"test/hmac"`) and config `hmac_length = 4`,
`zero_pad_length = 4`, `encode` produces exactly the repo's test-vector
tokens: `encode(0) = "test_g1HdsEGpXp5"`, `encode(1) = "test_bTPc8uxHEwv"`,
`encode(123) = "test_hHLBCl4rZ3u"`, and
`encode(u64::MAX) = "test_20cMzlnhTkILdJzWt"`.  The first two conjuncts
discharge the key derivation, the rest the full pipeline. -/
theorem c9_literal_vectors :
    testFf1Words = aes256KeyWords (hkdfExpand32 (strBytes "Test key here") (strBytes "test/ff1")) ∧
    testMacKey = hkdfExpand32 (strBytes "Test key here") (strBytes "test/hmac") ∧
    encode testCodec9 0 = some "test_g1HdsEGpXp5" ∧
    encode testCodec9 1 = some "test_bTPc8uxHEwv" ∧
    encode testCodec9 123 = some "test_hHLBCl4rZ3u" ∧
    encode testCodec9 (2 ^ 64 - 1) = some "test_20cMzlnhTkILdJzWt" :=
  ⟨testFf1Words_derived, testMacKey_derived, encode_testCodec9_zero, encode_testCodec9_one,
   encode_testCodec9_123, encode_testCodec9_max⟩

/-- C7 witness: the theorem applied to the genuinely derived codec named
`"test"` (`testCodec9`, with its HKDF/FF1/HMAC primitives) encoding `0`
to the real token `"test_g1HdsEGpXp5"`, decoded by a codec named
`"other"`. -/
theorem c7_witness :
    decode (mkCodec "other_" 4 4) "test_g1HdsEGpXp5" =
      some (DResult.err (Error.InvalidPre "test_" "other_")) :=
  c7_wrong_codec testCodec9 (mkCodec "other_" 4 4) "test" "other" 0 "test_g1HdsEGpXp5"
    (by decide) (by decide) (by decide) encode_testCodec9_zero

end Cryptid
